import Mathlib

/-!
# Verification of the emohawk / earthkit-data GRIB field-collection caches

This file embeds, as executable Lean definitions, the parts of the
repository needed to settle the frozen claims:

* `FieldSetMixin._find_coord_values` and `FieldSetMixin.coord` from
  `src/emohawk/readers/grib/fieldset.py` (translated directly from the
  source).

* The three-tier cache core (FieldCache / HandleCache / MetadataCache,
  the Field metadata-resolution algorithm, `unique_values`, `order_by`
  and the `diag` counters).  The implementation of this core is not in
  the sampled sources — only its test suite
  (`src/tests/grib/test_grib_cache.py`) is — so it is modelled from the
  specification, with the test suite used to fix the points the spec
  leaves open (which counters exist when a cache is disabled, the
  iteration structure of `unique_values`).  Each such definition is
  marked `Modelled from the spec`.
-/

namespace Emohawk

/-! ## Association-list helpers (used by both embeddings) -/

/-- Lookup in an association list by key (first match wins). -/
def alookup {κ β : Type} [DecidableEq κ] (l : List (κ × β)) (k : κ) : Option β :=
  match l with
  | [] => none
  | (k', v) :: t => if k' = k then some v else alookup t k

/-- Replace the value stored under a key (no-op for absent keys). -/
def areplace {κ β : Type} [DecidableEq κ] (l : List (κ × β)) (k : κ) (v : β) :
    List (κ × β) :=
  match l with
  | [] => []
  | e :: t => (if e.1 = k then (k, v) else e) :: areplace t k v

/-! ## Part 1: `FieldSetMixin` coordinate extraction

Translated from `src/emohawk/readers/grib/fieldset.py`.  A field is
represented by its metadata function `KeyName → Value` (the only part
of a field `_find_coord_values` consults); the `_coords` mapping of a
fieldset is an association list. -/

/-- `FieldSetMixin._find_coord_values(key)`: iterate the fields, collect
each field's `metadata(key)` value, appending it only when not already
collected. -/
def find_coord_values (fields : List (String → Nat)) (key : String) : List Nat :=
  fields.foldl (fun values i => if i key ∈ values then values else values ++ [i key]) []

/-- `FieldSetMixin.coord(key)`: return the memoized tuple when `key` is
in `_coords`; otherwise store `_find_coord_values(key)` under `key` and
re-enter `coord`, which now finds it.  Returns the tuple together with
the updated `_coords` mapping. -/
def coord (fields : List (String → Nat)) (coords : List (String × List Nat))
    (key : String) : List Nat × List (String × List Nat) :=
  match alookup coords key with
  | some vs => (vs, coords)
  | none =>
    let coords1 := (key, find_coord_values fields key) :: coords
    match alookup coords1 key with
    | some vs => (vs, coords1)
    | none => ([], coords1)

/-- First-encounter deduplication, the order described by the claim:
keep each value the first time it appears. -/
def dedupFE (l : List Nat) : List Nat :=
  l.foldl (fun acc v => if v ∈ acc then acc else acc ++ [v]) []

/-! ## Part 2: the three-tier cache core

Modelled from the spec: the implementation of the GRIB field-collection
cache core (FieldCache, HandleCache, per-field MetadataCache, the Field
metadata-resolution algorithm, `unique_values`, `order_by` and `diag`)
is not among the sampled source files; only its test suite
`src/tests/grib/test_grib_cache.py` is.  The definitions below follow
§3–§4 and §6 of the spec, with the points the spec leaves open fixed by
the test suite's assertions:

* when a cache is disabled the cache object does not exist (the tests
  assert `cache.handle_cache is None` / `cache.field_cache is None`) and
  its counters read 0 in the diagnostics;
* `unique_values` makes a single pass over the collection resolving all
  requested keys per field (the test's expectation
  `handle_cache_create_count = 18` for capacities 1 and 5 rules out one
  full pass per key);
* derived keys are cached under their own name alongside their
  underlying keys (the test's `hits = 72 = 18 * 4` on a repeated pass
  counts one hit per requested key).

Record content is a function `Records`; decoding position `p` yields a
`Handle` whose `get k` is `records p k` (decode is deterministic, §7).
Handle identity is the creation counter `hid`. -/

abbrev Pos := Nat

abbrev Val := Nat

/-- The decoded content of the container: for each record position, the
value of each metadata key. -/
abbrev Records := Pos → String → Val

/-- A metadata query key: a name plus the underlying basic keys a
derived key resolves through (`[]` for a basic key). -/
structure QKey where
  name : String
  deps : List String
deriving DecidableEq, Repr

/-- Modelled from the spec: the value a key denotes at a record
position; a derived value is computed from its underlying key values
(modelled as their sum — the claims only compare values for equality). -/
def keyValue (records : Records) (pos : Pos) (q : QKey) : Val :=
  match q.deps with
  | [] => records pos q.name
  | ds => (ds.map (records pos)).sum

/-- Modelled from the spec: an expensive decoded handle, identified by
its creation counter and bound to one record position. -/
structure Handle where
  hid : Nat
  hpos : Pos
deriving DecidableEq, Repr

/-- `Handle.get(key)`: querying a decoded handle (deterministic in the
record bytes, spec §7). -/
def Handle.get (records : Records) (h : Handle) (k : String) : Val :=
  records h.hpos k

/-- Modelled from the spec: the bounded LRU pool of decoded handles
(position ↦ handle id, most-recently-used first); `capacity = none`
means unbounded. -/
structure HandleCache where
  capacity : Option Nat
  entries : List (Pos × Nat)
  createCount : Nat
deriving DecidableEq, Repr

/-- Modelled from the spec: a Field — object identity `fid`, record
position, its own MetadataCache with hit/miss counters, and the raw
retained handle reference (`_handle`). -/
structure Field where
  fid : Nat
  pos : Pos
  mdCache : List (QKey × Val)
  mdHits : Nat
  mdMisses : Nat
  fhandle : Option Handle
deriving DecidableEq, Repr

/-- Modelled from the spec: the whole-collection store of Field objects
keyed by position. -/
structure FieldCache where
  entries : List (Pos × Field)
  createCount : Nat
deriving DecidableEq, Repr

/-- Modelled from the spec: the state of a FieldList — collection size,
configuration, the two optional caches (absent when disabled), the
checked-out-handle counter, the id counters, and the current logical
order of the collection. -/
structure CollState where
  n : Nat
  useMetadataCache : Bool
  fieldCache : Option FieldCache
  handleCache : Option HandleCache
  handleCount : Nat
  nextHid : Nat
  nextFid : Nat
  order : List Pos
deriving DecidableEq, Repr

/-- Modelled from the spec (§4.2): HandleCache acquire. On a hit the
entry moves to the front (most recently used); on a miss a fresh handle
is decoded, inserted, and the list is truncated to the capacity
(dropping the least recently used tail). `nid` is the next handle id. -/
def hcAcquire (hc : HandleCache) (pos : Pos) (nid : Nat) :
    Handle × HandleCache × Nat :=
  match alookup hc.entries pos with
  | some hid =>
      (⟨hid, pos⟩,
        { hc with entries := (pos, hid) :: hc.entries.filter (fun e => e.1 != pos) },
        nid)
  | none =>
      let entries1 := (pos, nid) :: hc.entries
      let entries2 := match hc.capacity with
        | some cap => entries1.take cap
        | none => entries1
      (⟨nid, pos⟩, { hc with entries := entries2, createCount := hc.createCount + 1 },
        nid + 1)

/-- Modelled from the spec: obtain a handle for a position during a
metadata resolution — through the HandleCache when one exists, else a
transient decode that is checked out (`handleCount`) for the duration of
the query. -/
def touchHandle (st : CollState) (pos : Pos) : Handle × CollState :=
  match st.handleCache with
  | some hc =>
      let r := hcAcquire hc pos st.nextHid
      (r.1, { st with handleCache := some r.2.1, nextHid := r.2.2 })
  | none =>
      (⟨st.nextHid, pos⟩,
        { st with nextHid := st.nextHid + 1, handleCount := st.handleCount + 1 })

/-- Modelled from the spec: release the transient handle at the end of
the enclosing query (meaningful only for the disabled-cache path). -/
def releaseTransient (st : CollState) : CollState :=
  match st.handleCache with
  | some _ => st
  | none => { st with handleCount := st.handleCount - 1 }

/-- Modelled from the spec (§4.3 step 1–2): resolve one underlying basic
key on a field: consult the MetadataCache (when enabled), on a miss
acquire a handle, query it, store the result and count the miss. -/
def resolveBasicName (records : Records) (st : CollState) (f : Field) (k : String) :
    Val × Field × CollState :=
  if st.useMetadataCache then
    match alookup f.mdCache ⟨k, []⟩ with
    | some v => (v, { f with mdHits := f.mdHits + 1 }, st)
    | none =>
        let r := touchHandle st f.pos
        let v := Handle.get records r.1 k
        (v, { f with mdCache := f.mdCache ++ [(⟨k, []⟩, v)], mdMisses := f.mdMisses + 1 },
          releaseTransient r.2)
  else
    let r := touchHandle st f.pos
    (Handle.get records r.1 k, f, releaseTransient r.2)

/-- Resolve the underlying keys of a derived key in sequence. -/
def resolveDeps (records : Records) (st : CollState) (f : Field) :
    List String → List Val × Field × CollState
  | [] => ([], f, st)
  | d :: ds =>
      let r1 := resolveBasicName records st f d
      let r2 := resolveDeps records r1.2.2 r1.2.1 ds
      (r1.1 :: r2.1, r2.2)

/-- Modelled from the spec (§4.3): resolve a query key on a field. A
derived key is itself consulted in the MetadataCache; on a miss its
underlying keys are resolved (each independently cached) and the derived
value is stored under the derived key. With the MetadataCache disabled
every resolution re-queries a handle. -/
def resolveKey (records : Records) (st : CollState) (f : Field) (q : QKey) :
    Val × Field × CollState :=
  match q.deps with
  | [] => resolveBasicName records st f q.name
  | _ :: _ =>
    if st.useMetadataCache then
      match alookup f.mdCache q with
      | some v => (v, { f with mdHits := f.mdHits + 1 }, st)
      | none =>
          let r := resolveDeps records st f q.deps
          let v := r.1.sum
          let f1 := r.2.1
          (v, { f1 with mdCache := f1.mdCache ++ [(q, v)], mdMisses := f1.mdMisses + 1 },
            r.2.2)
    else
      let r := resolveDeps records st f q.deps
      (r.1.sum, r.2.1, r.2.2)

/-- A freshly constructed Field: empty MetadataCache, no handle. -/
def mkField (fid : Nat) (pos : Pos) : Field :=
  ⟨fid, pos, [], 0, 0, none⟩

/-- Modelled from the spec (§4.1): FieldCache `get_or_create`. Enabled:
return the stored Field or construct-and-store; disabled: always
construct a throwaway Field. -/
def getField (st : CollState) (pos : Pos) : Field × CollState :=
  match st.fieldCache with
  | some fc =>
    match alookup fc.entries pos with
    | some f => (f, st)
    | none =>
        let f := mkField st.nextFid pos
        (f, { st with
          fieldCache := some ⟨(pos, f) :: fc.entries, fc.createCount + 1⟩,
          nextFid := st.nextFid + 1 })
  | none => (mkField st.nextFid pos, { st with nextFid := st.nextFid + 1 })

/-- Reflect a mutation of a Field back into the FieldCache (Python
mutates the stored object in place; the model replaces the entry). -/
def writeBack (st : CollState) (f : Field) : CollState :=
  match st.fieldCache with
  | some fc =>
      { st with fieldCache := some { fc with entries := areplace fc.entries f.pos f } }
  | none => st

/-- `field.metadata(key)` on a caller-held Field reference. -/
def fieldMetadata (records : Records) (st : CollState) (f : Field) (q : QKey) :
    Val × Field × CollState :=
  let r := resolveKey records st f q
  (r.1, r.2.1, writeBack r.2.2 r.2.1)

/-- `fieldlist[pos].metadata(key)`: index, resolve, write back. -/
def metadataAt (records : Records) (st : CollState) (pos : Pos) (q : QKey) :
    Val × Field × CollState :=
  let r := getField st pos
  fieldMetadata records r.2 r.1 q

/-- Modelled from the spec (§4.3 guarantee): the `field.handle`
property. A retained raw handle is returned as is; otherwise a handle is
obtained (through the HandleCache when one exists, else decoded fresh)
and retained on the Field, so that repeated reads return the identical
handle. -/
def handleProp (st : CollState) (f : Field) : Handle × Field × CollState :=
  match f.fhandle with
  | some h => (h, f, st)
  | none =>
    match st.handleCache with
    | some hc =>
        let r := hcAcquire hc f.pos st.nextHid
        (r.1, { f with fhandle := some r.1 },
          { st with handleCache := some r.2.1, nextHid := r.2.2 })
    | none =>
        let h : Handle := ⟨st.nextHid, f.pos⟩
        (h, { f with fhandle := some h }, { st with nextHid := st.nextHid + 1 })

/-- Resolve every requested key on one field, in sequence. -/
def uvRow (records : Records) (st : CollState) (f : Field) :
    List QKey → List Val × Field × CollState
  | [] => ([], f, st)
  | q :: qs =>
      let r1 := resolveKey records st f q
      let r2 := uvRow records r1.2.2 r1.2.1 qs
      (r1.1 :: r2.1, r2.2)

/-- Process one position of a `unique_values` pass: index the field,
resolve all requested keys on it, write the field back. -/
def uvField (records : Records) (st : CollState) (pos : Pos) (qs : List QKey) :
    List Val × CollState :=
  let r0 := getField st pos
  let r1 := uvRow records r0.2 r0.1 qs
  (r1.1, writeBack r1.2.2 r1.2.1)

/-- One pass over the given positions, collecting one row of values per
field. -/
def uvPass (records : Records) (st : CollState) (qs : List QKey) :
    List Pos → List (List Val) × CollState
  | [] => ([], st)
  | p :: ps =>
      let r1 := uvField records st p qs
      let r2 := uvPass records r1.2 qs ps
      (r1.1 :: r2.1, r2.2)

/-- Per requested key, the distinct values over the pass in
first-encounter order. -/
def columnsDedup (k : Nat) (rows : List (List Val)) : List (List Val) :=
  (List.range k).map (fun j => dedupFE (rows.map (fun r => r.getD j 0)))

/-- Modelled from the spec (§4.4): `unique_values(keys...)` — a full
pass over the collection in its current order, resolving the requested
keys through the ordinary metadata machinery, returning the distinct
values per key. -/
def unique_values (records : Records) (st : CollState) (qs : List QKey) :
    List (List Val) × CollState :=
  let r := uvPass records st qs st.order
  (columnsDedup qs.length r.1, r.2)

/-- One pass collecting the sort tuple of every position. -/
def obPass (records : Records) (st : CollState) (qs : List QKey) :
    List Pos → List (Pos × List Val) × CollState
  | [] => ([], st)
  | p :: ps =>
      let r1 := uvField records st p qs
      let r2 := obPass records r1.2 qs ps
      ((p, r1.1) :: r2.1, r2.2)

/-- Lexicographic comparison of value tuples. -/
def valListLe : List Val → List Val → Bool
  | [], _ => true
  | _ :: _, [] => false
  | a :: as, b :: bs => if a < b then true else if b < a then false else valListLe as bs

/-- Insertion step of the sort on (position, tuple) pairs. -/
def insertSorted (x : Pos × List Val) :
    List (Pos × List Val) → List (Pos × List Val)
  | [] => [x]
  | y :: ys => if valListLe x.2 y.2 then x :: y :: ys else y :: insertSorted x ys

/-- Insertion sort on (position, tuple) pairs. -/
def sortTuples : List (Pos × List Val) → List (Pos × List Val)
  | [] => []
  | x :: xs => insertSorted x (sortTuples xs)

/-- Modelled from the spec (§4.4): `order_by(keys)` — resolve the sort
keys of every field through the ordinary metadata machinery, then
replace the logical order with the sorted one. -/
def order_by (records : Records) (st : CollState) (qs : List QKey) : CollState :=
  let r := obPass records st qs st.order
  { r.2 with order := (sortTuples r.1).map Prod.fst }

/-- The diagnostics snapshot (spec §4.5): one point-in-time read-only
record of all eight counters. -/
structure Diag where
  field_cache_size : Nat
  field_cache_create_count : Nat
  handle_cache_size : Nat
  handle_cache_create_count : Nat
  handle_count : Nat
  metadata_cache_hits : Nat
  metadata_cache_misses : Nat
  metadata_cache_size : Nat
deriving DecidableEq, Repr

/-- The Fields the collection-level diagnostics can reach: those stored
in the FieldCache (none when it is disabled). -/
def storedFields (st : CollState) : List Field :=
  match st.fieldCache with
  | some fc => fc.entries.map Prod.snd
  | none => []

/-- Modelled from the spec (§4.5): collection-level `diag()`. Counters
of a disabled cache read 0; metadata counters aggregate over the Fields
stored in the FieldCache. -/
def diag (st : CollState) : Diag where
  field_cache_size := match st.fieldCache with | some fc => fc.entries.length | none => 0
  field_cache_create_count :=
    match st.fieldCache with | some fc => fc.createCount | none => 0
  handle_cache_size := match st.handleCache with | some hc => hc.entries.length | none => 0
  handle_cache_create_count :=
    match st.handleCache with | some hc => hc.createCount | none => 0
  handle_count := st.handleCount
  metadata_cache_hits := ((storedFields st).map Field.mdHits).sum
  metadata_cache_misses := ((storedFields st).map Field.mdMisses).sum
  metadata_cache_size := ((storedFields st).map (fun f => f.mdCache.length)).sum

/-- Per-Field `diag()`: that Field's own MetadataCache counters
(hits, misses, size). -/
def fieldDiag (f : Field) : Nat × Nat × Nat :=
  (f.mdHits, f.mdMisses, f.mdCache.length)

/-- Modelled from the spec (§6): a freshly constructed FieldList under
the three configuration options. Handle cache size 0 disables handle
retention entirely; `none` is unbounded. -/
def initState (n : Nat) (storeFieldsInMemory : Bool) (handleCacheSize : Option Nat)
    (useMetadataCache : Bool) : CollState :=
  { n := n
    useMetadataCache := useMetadataCache
    fieldCache := if storeFieldsInMemory then some ⟨[], 0⟩ else none
    handleCache := match handleCacheSize with
      | some 0 => none
      | some k => some ⟨some k, [], 0⟩
      | none => some ⟨none, [], 0⟩
    handleCount := 0
    nextHid := 0
    nextFid := 0
    order := List.range n }

/-- The caller-driven queries of the downstream interface (§6). -/
inductive Query where
  | md (i : Nat) (q : QKey)
  | uniq (qs : List QKey)
  | ordBy (qs : List QKey)
deriving DecidableEq, Repr

/-- Run one query against the collection. Indexing is through the
current logical order; an out-of-range index is a no-op. -/
def runQuery (records : Records) (st : CollState) : Query → CollState
  | .md i q =>
    match st.order[i]? with
    | some pos => (metadataAt records st pos q).2.2
    | none => st
  | .uniq qs => (unique_values records st qs).2
  | .ordBy qs => order_by records st qs

/-- Run a sequence of queries. -/
def runQueries (records : Records) (st : CollState) (l : List Query) : CollState :=
  l.foldl (runQuery records) st

/-! ### The test scenario (18-record collection, 4 requested keys) -/

/-- The four keys requested by the scenario: three basic, one derived
through two underlying keys — six distinct cached keys per field. -/
def scenarioKeys : List QKey :=
  [⟨"paramId", []⟩, ⟨"levelist", []⟩, ⟨"levtype", []⟩,
   ⟨"valid_datetime", ["date", "time"]⟩]

/-- Concrete record content for the scenario runs. -/
def scenarioRecords : Records := fun p _ => p

/-! ### Invariants of reachable collection states -/

/-- The HandleCache invariant of spec §4.2: number of live entries never
exceeds a bounded capacity. -/
def hcOK (st : CollState) : Prop :=
  ∀ hc cap, st.handleCache = some hc → hc.capacity = some cap →
    hc.entries.length ≤ cap

/-- A Field's MetadataCache entries hold exactly the values the record
at the field's locator denotes (spec §3, Field invariant). -/
def mdOK (records : Records) (f : Field) : Prop :=
  ∀ e ∈ f.mdCache, e.2 = keyValue records f.pos e.1

/-- The per-Field invariant: valid position, no stray raw handle, and a
consistent MetadataCache. -/
def fieldOK (records : Records) (n : Nat) (f : Field) : Prop :=
  f.pos < n ∧ f.fhandle = none ∧ mdOK records f

/-- The FieldCache invariant: the create counter equals the number of
stored Fields, positions are distinct keys, and every stored Field is
stored under its own position and satisfies the Field invariant. -/
def fcOK (records : Records) (st : CollState) : Prop :=
  ∀ fc, st.fieldCache = some fc →
    fc.createCount = fc.entries.length ∧
    (fc.entries.map Prod.fst).Nodup ∧
    ∀ e ∈ fc.entries, e.1 = e.2.pos ∧ fieldOK records st.n e.2

/-- The logical order only mentions valid positions. -/
def orderOK (st : CollState) : Prop := ∀ p ∈ st.order, p < st.n

/-- The combined state invariant; `handleCount = 0` is the at-rest part
of spec §4.2 (no handle checked out between queries). -/
def stInv (records : Records) (st : CollState) : Prop :=
  hcOK st ∧ fcOK records st ∧ orderOK st ∧ st.handleCount = 0

/-- `(q, v)` is a MetadataCache entry of the Field stored at `pos`. -/
def entryAt (st : CollState) (pos : Pos) (q : QKey) (v : Val) : Bool :=
  match st.fieldCache with
  | some fc =>
    match alookup fc.entries pos with
    | some f => decide ((q, v) ∈ f.mdCache)
    | none => false
  | none => false

/-! ### Handle-layer lemmas -/

/-- What a metadata resolution may do to the state: touch the handle
cache and the handle-id counter, and nothing else; the handle-cache
shape facts needed by the invariants come along. -/
structure HFrame (st st' : CollState) : Prop where
  n_eq : st'.n = st.n
  umc_eq : st'.useMetadataCache = st.useMetadataCache
  fc_eq : st'.fieldCache = st.fieldCache
  order_eq : st'.order = st.order
  nextFid_eq : st'.nextFid = st.nextFid
  hcount_eq : st'.handleCount = st.handleCount
  hc_none : st.handleCache = none → st'.handleCache = none
  hc_cap : ∀ hc', st'.handleCache = some hc' →
    ∃ hc, st.handleCache = some hc ∧ hc'.capacity = hc.capacity
  hc_ok : hcOK st → hcOK st'

/-! ### Resolution-layer lemmas -/

/-- What a metadata resolution may do to a caller-held Field: grow its
MetadataCache with consistent values, bump its counters, and nothing
else. -/
structure FieldStep (records : Records) (f f' : Field) : Prop where
  pos_eq : f'.pos = f.pos
  fid_eq : f'.fid = f.fid
  fhandle_eq : f'.fhandle = f.fhandle
  md_grow : ∀ e ∈ f.mdCache, e ∈ f'.mdCache
  md_ok : mdOK records f → ∀ e ∈ f'.mdCache, e.2 = keyValue records f.pos e.1

/-! ### Query-level composition -/

/-- What one caller-visible query may do to the collection state.  The
FieldCache- and entry-persistence facts are conditional on the state
invariants (the positions a query touches come from the logical
order). -/
structure QStep (records : Records) (st st' : CollState) : Prop where
  n_eq : st'.n = st.n
  umc_eq : st'.useMetadataCache = st.useMetadataCache
  hcount_eq : st'.handleCount = st.handleCount
  hc_none : st.handleCache = none → st'.handleCache = none
  hc_cap : ∀ hc', st'.handleCache = some hc' →
    ∃ hc, st.handleCache = some hc ∧ hc'.capacity = hc.capacity
  hc_ok : hcOK st → hcOK st'
  fc_none : st.fieldCache = none → st'.fieldCache = none
  fc_some : ∀ fc, st.fieldCache = some fc → ∃ fc', st'.fieldCache = some fc'
  fc_ok : fcOK records st → orderOK st → fcOK records st'
  order_ok : orderOK st → orderOK st'
  md_persist : fcOK records st → orderOK st → ∀ pos q v,
    entryAt st pos q v = true → entryAt st' pos q v = true

/-- The value a handle yields for a query key: its own `get` for a basic
key, the combination of its `get`s over the underlying keys for a
derived one. -/
def keyValueH (records : Records) (h : Handle) (q : QKey) : Val :=
  match q.deps with
  | [] => Handle.get records h q.name
  | ds => (ds.map (Handle.get records h)).sum

/-- Shorthand for the 18-record test collection under a given
configuration. -/
def scenarioInit (fim : Bool) (cap : Option Nat) : CollState :=
  initState 18 fim cap true

/-- One full `unique_values` pass over the four requested scenario
keys. -/
def scenarioPass (st : CollState) : CollState :=
  (unique_values scenarioRecords st scenarioKeys).2

/-- Indexing position 0 of the capacity-0, FieldCache-disabled
collection after a full pass (a retained transient Field). -/
def c8Field0 : Field × CollState :=
  getField (scenarioPass (scenarioInit false (some 0))) 0

/-- A first `metadata("levelist")` call on the retained Field. -/
def c8Call1 : Val × Field × CollState :=
  fieldMetadata scenarioRecords c8Field0.2 c8Field0.1 ⟨"levelist", []⟩

/-- A repeated `metadata("levelist")` call on the same reference. -/
def c8Call2 : Val × Field × CollState :=
  fieldMetadata scenarioRecords c8Call1.2.2 c8Call1.2.1 ⟨"levelist", []⟩

/-- First `metadata q` call on the Field obtained by the first of two
indexing operations, in the state left by the second. -/
def retainedCall1 (records : Records) (st : CollState) (pos : Pos) (q : QKey) :
    Val × Field × CollState :=
  fieldMetadata records (getField (getField st pos).2 pos).2 (getField st pos).1 q

/-- Repeated `metadata q` call on the same retained Field reference. -/
def retainedCall2 (records : Records) (st : CollState) (pos : Pos) (q : QKey) :
    Val × Field × CollState :=
  fieldMetadata records (retainedCall1 records st pos q).2.2
    (retainedCall1 records st pos q).2.1 q

/-- The handle obtained by reading `field.handle` right after a
`metadata` call on the field of a collection. -/
def handleAfter (records : Records) (st : CollState) (pos : Pos) (q : QKey) :
    Handle × Field × CollState :=
  handleProp (metadataAt records st pos q).2.2 (metadataAt records st pos q).2.1

/-! ### `order_by` with fully cached sort keys: only the hit counter moves -/

/-- Every requested key is already cached on the Field stored at `p`. -/
def posAllCached (st : CollState) (p : Pos) (qs : List QKey) : Bool :=
  match st.fieldCache with
  | some fc =>
    match alookup fc.entries p with
    | some f => qs.all (fun q => (alookup f.mdCache q).isSome)
    | none => false
  | none => false

/-- Every requested key is already cached on every Field of the logical
order. -/
def allCached (st : CollState) (qs : List QKey) : Bool :=
  st.order.all (fun p => posAllCached st p qs)

/-- Two FieldCache entries that agree on everything except the hit
counter. -/
def entSameButHits (e e' : Pos × Field) : Prop :=
  e'.1 = e.1 ∧ e'.2.pos = e.2.pos ∧ e'.2.fid = e.2.fid ∧ e'.2.fhandle = e.2.fhandle ∧
  e'.2.mdCache = e.2.mdCache ∧ e'.2.mdMisses = e.2.mdMisses

/-- Two collection states that agree on everything except the stored
Fields' hit counters (and hence the aggregated hit counter). -/
def SameButHits (st st' : CollState) : Prop :=
  st'.n = st.n ∧ st'.useMetadataCache = st.useMetadataCache ∧
  st'.handleCache = st.handleCache ∧ st'.handleCount = st.handleCount ∧
  st'.nextHid = st.nextHid ∧ st'.nextFid = st.nextFid ∧ st'.order = st.order ∧
  ((st.fieldCache = none ∧ st'.fieldCache = none) ∨
   (∃ fc fc', st.fieldCache = some fc ∧ st'.fieldCache = some fc' ∧
     fc'.createCount = fc.createCount ∧
     List.Forall₂ entSameButHits fc.entries fc'.entries))

def setFC (s : CollState) (X : Option FieldCache) : CollState :=
  { s with fieldCache := X }

/-- The state produced by indexing a Field and calling `metadata`
individually for each requested key. -/
def runIndividualPos (records : Records) (s : CollState) (pos : Pos)
    (qs : List QKey) : CollState :=
  qs.foldl (fun s q => (metadataAt records s pos q).2.2) (getField s pos).2

/-- The state produced by making the equivalent individual `metadata`
calls for every position of the current order. -/
def runIndividual (records : Records) (st : CollState) (qs : List QKey) : CollState :=
  st.order.foldl (fun s pos => runIndividualPos records s pos qs) st

/-! ### The claims -/

set_option maxRecDepth 40000

theorem alookup_eq_none_of_not_mem {κ β : Type} [DecidableEq κ]
    {l : List (κ × β)} {k : κ} (h : k ∉ l.map Prod.fst) : alookup l k = none := by
  induction l with
  | nil => rfl
  | cons e t ih =>
    simp only [List.map_cons, List.mem_cons] at h
    push_neg at h
    simp [alookup, Ne.symm h.1, ih h.2]

theorem mem_of_alookup_eq_some {κ β : Type} [DecidableEq κ]
    {l : List (κ × β)} {k : κ} {v : β} (h : alookup l k = some v) : (k, v) ∈ l := by
  induction l with
  | nil => simp [alookup] at h
  | cons e t ih =>
    simp only [alookup] at h
    split at h
    · rename_i heq
      cases e
      simp_all
    · exact List.mem_cons_of_mem _ (ih h)

theorem alookup_isSome_of_mem {κ β : Type} [DecidableEq κ]
    {l : List (κ × β)} {k : κ} {v : β} (h : (k, v) ∈ l) : (alookup l k).isSome := by
  induction l with
  | nil => simp at h
  | cons e t ih =>
    rcases List.mem_cons.mp h with h1 | h2
    · subst h1; simp [alookup]
    · by_cases he : e.1 = k
      · cases e; simp_all [alookup]
      · cases e; simpa [alookup, he] using ih h2

theorem find_coord_values_eq_dedupFE (fields : List (String → Nat)) (key : String) :
    find_coord_values fields key = dedupFE (fields.map (fun f => f key)) := by
  unfold find_coord_values dedupFE
  rw [List.foldl_map]

theorem dedupFE_go_nodup (l : List Nat) (acc : List Nat) (h : acc.Nodup) :
    (l.foldl (fun acc v => if v ∈ acc then acc else acc ++ [v]) acc).Nodup := by
  induction l generalizing acc with
  | nil => simpa
  | cons x t ih =>
    simp only [List.foldl_cons]
    by_cases hx : x ∈ acc
    · simpa [hx] using ih acc h
    · have : (acc ++ [x]).Nodup := by simp [List.nodup_append, h, hx]
      simpa [hx] using ih _ this

theorem dedupFE_go_mem (l : List Nat) (acc : List Nat) (v : Nat) :
    v ∈ l.foldl (fun acc v => if v ∈ acc then acc else acc ++ [v]) acc ↔
      v ∈ acc ∨ v ∈ l := by
  induction l generalizing acc with
  | nil => simp
  | cons x t ih =>
    simp only [List.foldl_cons]
    by_cases hx : x ∈ acc
    · rw [if_pos hx, ih]
      constructor
      · rintro (h | h)
        · exact Or.inl h
        · exact Or.inr (List.mem_cons_of_mem _ h)
      · rintro (h | h)
        · exact Or.inl h
        · rcases List.mem_cons.mp h with rfl | h
          · exact Or.inl hx
          · exact Or.inr h
    · rw [if_neg hx, ih]
      simp only [List.mem_append, List.mem_singleton, List.mem_cons]
      tauto

theorem dedupFE_nodup (l : List Nat) : (dedupFE l).Nodup :=
  dedupFE_go_nodup l [] List.nodup_nil

theorem dedupFE_mem (l : List Nat) (v : Nat) : v ∈ dedupFE l ↔ v ∈ l := by
  simpa using dedupFE_go_mem l [] v

/-- C10: for every fieldset and every key not yet memoized, `coord key`
returns the duplicate-free list of the per-field `metadata key` values in
first-encounter iteration order, and memoizes it in `_coords`; a later
`coord key` call — over any field list, so without iterating the original
fields again — returns the cached tuple and leaves `_coords` unchanged. -/
theorem coord_first_encounter_and_memoized
    (fields fields2 : List (String → Nat)) (coords : List (String × List Nat))
    (key : String) (hnew : alookup coords key = none) :
    (coord fields coords key).1 = dedupFE (fields.map (fun f => f key)) ∧
    (∀ v, v ∈ (coord fields coords key).1 ↔ v ∈ fields.map (fun f => f key)) ∧
    ((coord fields coords key).1).Nodup ∧
    coord fields2 (coord fields coords key).2 key =
      ((coord fields coords key).1, (coord fields coords key).2) := by
  have hres : coord fields coords key =
      (find_coord_values fields key, (key, find_coord_values fields key) :: coords) := by
    unfold coord
    rw [hnew]
    simp [alookup]
  rw [hres]
  refine ⟨find_coord_values_eq_dedupFE fields key, ?_, ?_, ?_⟩
  · intro v
    rw [find_coord_values_eq_dedupFE]
    exact dedupFE_mem _ v
  · rw [find_coord_values_eq_dedupFE]
    exact dedupFE_nodup _
  · unfold coord
    simp [alookup]

/-- Witness for `coord_first_encounter_and_memoized` at a concrete
three-field fieldset with a duplicated value. -/
theorem coord_first_encounter_and_memoized_witness :
    (coord [fun _ => 5, fun _ => 7, fun _ => 5] [] "levelist").1 =
        dedupFE ([fun _ => 5, fun _ => 7, fun _ => 5].map (fun f => f "levelist")) ∧
    (∀ v, v ∈ (coord [fun _ => 5, fun _ => 7, fun _ => 5] [] "levelist").1 ↔
        v ∈ [fun _ => 5, fun _ => 7, fun _ => 5].map (fun f => f "levelist")) ∧
    ((coord [fun _ => 5, fun _ => 7, fun _ => 5] [] "levelist").1).Nodup ∧
    coord [] (coord [fun _ => 5, fun _ => 7, fun _ => 5] [] "levelist").2 "levelist" =
      ((coord [fun _ => 5, fun _ => 7, fun _ => 5] [] "levelist").1,
        (coord [fun _ => 5, fun _ => 7, fun _ => 5] [] "levelist").2) :=
  coord_first_encounter_and_memoized _ [] [] "levelist" rfl

/-! ### List helper lemmas -/

theorem not_mem_of_alookup_none {κ β : Type} [DecidableEq κ]
    {l : List (κ × β)} {k : κ} (h : alookup l k = none) : k ∉ l.map Prod.fst := by
  intro hmem
  rcases List.mem_map.mp hmem with ⟨e, he, hfst⟩
  have := alookup_isSome_of_mem (l := l) (k := k) (v := e.2) (by
    have : (k, e.2) = e := by cases e; cases hfst; rfl
    rw [this]; exact he)
  rw [h] at this
  simp at this

theorem alookup_cons_ne {κ β : Type} [DecidableEq κ]
    {k k' : κ} {v : β} {l : List (κ × β)} (h : k ≠ k') :
    alookup ((k, v) :: l) k' = alookup l k' := by
  simp [alookup, h]

theorem length_filter_lt_of_mem {α : Type} {l : List α} {p : α → Bool} {x : α}
    (hx : x ∈ l) (hpx : p x = false) : (l.filter p).length < l.length := by
  induction l with
  | nil => simp at hx
  | cons a t ih =>
    rcases List.mem_cons.mp hx with rfl | hmem
    · rw [List.filter_cons, hpx]
      exact Nat.lt_succ_of_le (List.length_filter_le p t)
    · rw [List.filter_cons]
      cases hpa : p a
      · simpa using Nat.lt_succ_of_lt (ih hmem)
      · simpa using Nat.succ_lt_succ (ih hmem)

theorem areplace_map_fst {κ β : Type} [DecidableEq κ]
    (l : List (κ × β)) (k : κ) (v : β) :
    (areplace l k v).map Prod.fst = l.map Prod.fst := by
  induction l with
  | nil => rfl
  | cons e t ih =>
    simp only [areplace, List.map_cons]
    by_cases he : e.1 = k
    · simp [he, ih]
    · simp [he, ih]

theorem areplace_length {κ β : Type} [DecidableEq κ]
    (l : List (κ × β)) (k : κ) (v : β) : (areplace l k v).length = l.length := by
  induction l with
  | nil => rfl
  | cons e t ih => simp only [areplace, List.length_cons, ih]

theorem mem_areplace {κ β : Type} [DecidableEq κ]
    {l : List (κ × β)} {k : κ} {v : β} {e : κ × β} (h : e ∈ areplace l k v) :
    e = (k, v) ∨ e ∈ l := by
  induction l with
  | nil => simp [areplace] at h
  | cons a t ih =>
    simp only [areplace, List.mem_cons] at h
    rcases h with h | h
    · by_cases hk : a.1 = k
      · rw [if_pos hk] at h
        exact Or.inl h
      · rw [if_neg hk] at h
        subst h
        exact Or.inr (List.mem_cons_self _ _)
    · rcases ih h with h1 | h1
      · exact Or.inl h1
      · exact Or.inr (List.mem_cons_of_mem _ h1)

theorem alookup_cons {κ β : Type} [DecidableEq κ]
    (a : κ) (b : β) (t : List (κ × β)) (k : κ) :
    alookup ((a, b) :: t) k = if a = k then some b else alookup t k := rfl

theorem areplace_cons_pos {κ β : Type} [DecidableEq κ]
    {a k : κ} (b : β) (t : List (κ × β)) (v : β) (hk : a = k) :
    areplace ((a, b) :: t) k v = (k, v) :: areplace t k v := by
  simp [areplace, hk]

theorem areplace_cons_neg {κ β : Type} [DecidableEq κ]
    {a k : κ} (b : β) (t : List (κ × β)) (v : β) (hk : ¬a = k) :
    areplace ((a, b) :: t) k v = (a, b) :: areplace t k v := by
  simp [areplace, hk]

theorem alookup_areplace_self {κ β : Type} [DecidableEq κ]
    {l : List (κ × β)} {k : κ} {w : β} (v : β) (h : alookup l k = some w) :
    alookup (areplace l k v) k = some v := by
  induction l with
  | nil => simp [alookup] at h
  | cons e t ih =>
    obtain ⟨a, b⟩ := e
    by_cases hk : a = k
    · rw [areplace_cons_pos b t v hk, alookup_cons]
      simp
    · rw [alookup_cons, if_neg hk] at h
      rw [areplace_cons_neg b t v hk, alookup_cons, if_neg hk]
      exact ih h

theorem alookup_areplace_ne {κ β : Type} [DecidableEq κ]
    {l : List (κ × β)} {k k' : κ} (v : β) (h : k' ≠ k) :
    alookup (areplace l k v) k' = alookup l k' := by
  induction l with
  | nil => rfl
  | cons e t ih =>
    obtain ⟨a, b⟩ := e
    by_cases hk : a = k
    · have hne : k ≠ k' := fun hh => h hh.symm
      have hne' : a ≠ k' := hk ▸ hne
      rw [areplace_cons_pos b t v hk, alookup_cons, if_neg hne, alookup_cons, if_neg hne']
      exact ih
    · rw [areplace_cons_neg b t v hk, alookup_cons, alookup_cons]
      by_cases hk' : a = k'
      · simp [hk']
      · rw [if_neg hk', if_neg hk']
        exact ih

theorem areplace_areplace {κ β : Type} [DecidableEq κ]
    (l : List (κ × β)) (k : κ) (v w : β) :
    areplace (areplace l k v) k w = areplace l k w := by
  induction l with
  | nil => rfl
  | cons e t ih =>
    obtain ⟨a, b⟩ := e
    by_cases hk : a = k
    · rw [areplace_cons_pos b t v hk, areplace_cons_pos v (areplace t k v) w rfl,
        areplace_cons_pos b t w hk, ih]
    · rw [areplace_cons_neg b t v hk, areplace_cons_neg b (areplace t k v) w hk,
        areplace_cons_neg b t w hk, ih]

theorem nodup_bounded_length {l : List Nat} {n : Nat}
    (hnd : l.Nodup) (hlt : ∀ k ∈ l, k < n) : l.length ≤ n := by
  classical
  have hcard : l.toFinset.card = l.length := List.toFinset_card_of_nodup hnd
  have hsub : l.toFinset ⊆ Finset.range n := by
    intro x hx
    rw [List.mem_toFinset] at hx
    exact Finset.mem_range.mpr (hlt x hx)
  calc l.length = l.toFinset.card := hcard.symm
    _ ≤ (Finset.range n).card := Finset.card_le_card hsub
    _ = n := Finset.card_range n

theorem HFrame.hrefl (st : CollState) : HFrame st st :=
  ⟨rfl, rfl, rfl, rfl, rfl, rfl, fun h => h, fun hc' h => ⟨hc', h, rfl⟩, fun h => h⟩

theorem HFrame.htrans {s1 s2 s3 : CollState} (a : HFrame s1 s2) (b : HFrame s2 s3) :
    HFrame s1 s3 := by
  refine ⟨b.n_eq.trans a.n_eq, b.umc_eq.trans a.umc_eq, b.fc_eq.trans a.fc_eq,
    b.order_eq.trans a.order_eq, b.nextFid_eq.trans a.nextFid_eq,
    b.hcount_eq.trans a.hcount_eq, fun h => b.hc_none (a.hc_none h), ?_,
    fun h => b.hc_ok (a.hc_ok h)⟩
  intro hc3 h3
  rcases b.hc_cap hc3 h3 with ⟨hc2, h2, hcap2⟩
  rcases a.hc_cap hc2 h2 with ⟨hc1, h1, hcap1⟩
  exact ⟨hc1, h1, hcap2.trans hcap1⟩

theorem hcAcquire_hpos (hc : HandleCache) (pos : Pos) (nid : Nat) :
    (hcAcquire hc pos nid).1.hpos = pos := by
  unfold hcAcquire
  cases alookup hc.entries pos <;> rfl

theorem hcAcquire_capacity (hc : HandleCache) (pos : Pos) (nid : Nat) :
    (hcAcquire hc pos nid).2.1.capacity = hc.capacity := by
  unfold hcAcquire
  cases alookup hc.entries pos <;> rfl

theorem hcAcquire_bound (hc : HandleCache) (pos : Pos) (nid : Nat) (cap : Nat)
    (hcap : hc.capacity = some cap) (hle : hc.entries.length ≤ cap) :
    (hcAcquire hc pos nid).2.1.entries.length ≤ cap := by
  unfold hcAcquire
  cases hl : alookup hc.entries pos with
  | some hid =>
    simp only
    have hmem : (pos, hid) ∈ hc.entries := mem_of_alookup_eq_some hl
    have := length_filter_lt_of_mem (p := fun e => e.1 != pos) hmem (by simp)
    simp only [List.length_cons]
    omega
  | none =>
    simp only [hcap]
    calc (((pos, nid) :: hc.entries).take cap).length ≤ cap := by
          rw [List.length_take]
          exact Nat.min_le_left _ _
      _ ≤ cap := Nat.le_refl cap

theorem touchHandle_hpos (st : CollState) (pos : Pos) :
    (touchHandle st pos).1.hpos = pos := by
  unfold touchHandle
  cases st.handleCache with
  | some hc => simp [hcAcquire_hpos]
  | none => rfl

/-- The state effect of an acquire/release pair around one resolution. -/
theorem touchRelease_hframe (st : CollState) (pos : Pos) :
    HFrame st (releaseTransient (touchHandle st pos).2) := by
  cases h : st.handleCache with
  | some hc =>
    have htouch : (touchHandle st pos).2 =
        { st with handleCache := some (hcAcquire hc pos st.nextHid).2.1,
                  nextHid := (hcAcquire hc pos st.nextHid).2.2 } := by
      unfold touchHandle
      rw [h]
    have hrel : releaseTransient (touchHandle st pos).2 = (touchHandle st pos).2 := by
      unfold releaseTransient
      rw [htouch]
    rw [hrel, htouch]
    refine ⟨rfl, rfl, rfl, rfl, rfl, rfl, ?_, ?_, ?_⟩
    · intro hnone
      rw [h] at hnone
      cases hnone
    · intro hc' h'
      simp only at h'
      cases h'
      exact ⟨hc, h, hcAcquire_capacity hc pos st.nextHid⟩
    · intro hok
      intro hc' cap h' hcap'
      simp only at h'
      cases h'
      have hcc : hc.capacity = some cap :=
        (hcAcquire_capacity hc pos st.nextHid) ▸ hcap'
      exact hcAcquire_bound hc pos st.nextHid cap hcc (hok hc cap h hcc)
  | none =>
    have htouch : (touchHandle st pos).2 =
        { st with nextHid := st.nextHid + 1, handleCount := st.handleCount + 1 } := by
      unfold touchHandle
      rw [h]
    have hrel : releaseTransient (touchHandle st pos).2 =
        { st with nextHid := st.nextHid + 1 } := by
      unfold releaseTransient
      rw [htouch]
      simp [h]
    rw [hrel]
    refine ⟨rfl, rfl, rfl, rfl, rfl, rfl, fun _ => h, ?_, ?_⟩
    · intro hc' h'
      simp only at h'
      rw [h] at h'
      cases h'
    · intro hok hc' cap h' hcap'
      simp only at h'
      rw [h] at h'
      cases h'

theorem fieldStep_refl (records : Records) (f : Field) : FieldStep records f f :=
  ⟨rfl, rfl, rfl, fun _ he => he, fun h => h⟩

theorem FieldStep.mdOK_out {records : Records} {f f' : Field}
    (a : FieldStep records f f') (h : mdOK records f) : mdOK records f' := by
  intro e he
  rw [a.pos_eq]
  exact a.md_ok h e he

theorem FieldStep.ftrans {records : Records} {f f' f'' : Field}
    (a : FieldStep records f f') (b : FieldStep records f' f'') :
    FieldStep records f f'' := by
  refine ⟨b.pos_eq.trans a.pos_eq, b.fid_eq.trans a.fid_eq,
    b.fhandle_eq.trans a.fhandle_eq,
    fun e he => b.md_grow e (a.md_grow e he), ?_⟩
  intro h e he
  rw [← a.pos_eq]
  exact b.md_ok (a.mdOK_out h) e he

theorem resolveBasicName_facts (records : Records) (st : CollState) (f : Field)
    (k : String) :
    HFrame st (resolveBasicName records st f k).2.2 ∧
    FieldStep records f (resolveBasicName records st f k).2.1 ∧
    (mdOK records f → (resolveBasicName records st f k).1 = records f.pos k) := by
  unfold resolveBasicName
  by_cases humc : st.useMetadataCache
  · rw [if_pos humc]
    cases hl : alookup f.mdCache ⟨k, []⟩ with
    | some v =>
      simp only
      refine ⟨HFrame.hrefl st, ⟨rfl, rfl, rfl, fun _ he => he, fun h => h⟩, ?_⟩
      intro hmd
      have := hmd _ (mem_of_alookup_eq_some hl)
      simpa [keyValue] using this
    | none =>
      simp only
      refine ⟨touchRelease_hframe st f.pos, ?_, ?_⟩
      · refine ⟨rfl, rfl, rfl, fun e he => List.mem_append_left _ he, ?_⟩
        intro hmd e he
        rcases List.mem_append.mp he with h1 | h1
        · exact hmd e h1
        · rw [List.mem_singleton] at h1
          subst h1
          simp [Handle.get, touchHandle_hpos, keyValue]
      · intro _
        simp [Handle.get, touchHandle_hpos]
  · rw [if_neg humc]
    simp only
    exact ⟨touchRelease_hframe st f.pos, fieldStep_refl records f,
      fun _ => by simp [Handle.get, touchHandle_hpos]⟩

theorem resolveDeps_facts (records : Records) (ds : List String) :
    ∀ (st : CollState) (f : Field),
    HFrame st (resolveDeps records st f ds).2.2 ∧
    FieldStep records f (resolveDeps records st f ds).2.1 ∧
    (mdOK records f → (resolveDeps records st f ds).1 = ds.map (records f.pos)) := by
  induction ds with
  | nil =>
    intro st f
    exact ⟨HFrame.hrefl st, fieldStep_refl records f, fun _ => rfl⟩
  | cons d ds ih =>
    intro st f
    obtain ⟨h1, s1, v1⟩ := resolveBasicName_facts records st f d
    obtain ⟨h2, s2, v2⟩ :=
      ih (resolveBasicName records st f d).2.2 (resolveBasicName records st f d).2.1
    refine ⟨h1.htrans h2, s1.ftrans s2, ?_⟩
    intro hmd
    show (resolveBasicName records st f d).1 :: (resolveDeps records _ _ ds).1 =
      records f.pos d :: ds.map (records f.pos)
    rw [v1 hmd, v2 (s1.mdOK_out hmd), s1.pos_eq]

theorem resolveKey_facts (records : Records) (st : CollState) (f : Field) (q : QKey) :
    HFrame st (resolveKey records st f q).2.2 ∧
    FieldStep records f (resolveKey records st f q).2.1 ∧
    (mdOK records f → (resolveKey records st f q).1 = keyValue records f.pos q) := by
  obtain ⟨qn, qd⟩ := q
  cases qd with
  | nil =>
    have : resolveKey records st f ⟨qn, []⟩ = resolveBasicName records st f qn := rfl
    rw [this]
    obtain ⟨h1, s1, v1⟩ := resolveBasicName_facts records st f qn
    exact ⟨h1, s1, fun hmd => by rw [v1 hmd]; simp [keyValue]⟩
  | cons d ds =>
    show HFrame st (resolveKey records st f ⟨qn, d :: ds⟩).2.2 ∧ _
    unfold resolveKey
    by_cases humc : st.useMetadataCache
    · rw [if_pos humc]
      cases hl : alookup f.mdCache ⟨qn, d :: ds⟩ with
      | some v =>
        simp only
        refine ⟨HFrame.hrefl st, ⟨rfl, rfl, rfl, fun _ he => he, fun h => h⟩, ?_⟩
        intro hmd
        exact hmd _ (mem_of_alookup_eq_some hl)
      | none =>
        simp only
        obtain ⟨h1, s1, v1⟩ := resolveDeps_facts records (d :: ds) st f
        refine ⟨h1, ?_, ?_⟩
        · refine ⟨s1.pos_eq, s1.fid_eq, s1.fhandle_eq,
            fun e he => List.mem_append_left _ (s1.md_grow e he), ?_⟩
          intro hmd e he
          rcases List.mem_append.mp he with hin | hin
          · exact s1.md_ok hmd e hin
          · rw [List.mem_singleton] at hin
            subst hin
            simp only
            rw [v1 hmd]
            simp [keyValue]
        · intro hmd
          rw [v1 hmd]
          simp [keyValue]
    · rw [if_neg humc]
      simp only
      obtain ⟨h1, s1, v1⟩ := resolveDeps_facts records (d :: ds) st f
      refine ⟨h1, s1, ?_⟩
      intro hmd
      rw [v1 hmd]
      simp [keyValue]

theorem uvRow_facts (records : Records) (qs : List QKey) :
    ∀ (st : CollState) (f : Field),
    HFrame st (uvRow records st f qs).2.2 ∧
    FieldStep records f (uvRow records st f qs).2.1 ∧
    (mdOK records f → (uvRow records st f qs).1 = qs.map (keyValue records f.pos)) := by
  induction qs with
  | nil =>
    intro st f
    exact ⟨HFrame.hrefl st, fieldStep_refl records f, fun _ => rfl⟩
  | cons q qs ih =>
    intro st f
    obtain ⟨h1, s1, v1⟩ := resolveKey_facts records st f q
    obtain ⟨h2, s2, v2⟩ :=
      ih (resolveKey records st f q).2.2 (resolveKey records st f q).2.1
    refine ⟨h1.htrans h2, s1.ftrans s2, ?_⟩
    intro hmd
    show (resolveKey records st f q).1 :: (uvRow records _ _ qs).1 =
      keyValue records f.pos q :: qs.map (keyValue records f.pos)
    rw [v1 hmd, v2 (s1.mdOK_out hmd), s1.pos_eq]

/-! ### FieldCache-layer lemmas -/

theorem getField_disabled {st : CollState} (pos : Pos) (h : st.fieldCache = none) :
    getField st pos = (mkField st.nextFid pos, { st with nextFid := st.nextFid + 1 }) := by
  unfold getField
  rw [h]

theorem getField_hit {st : CollState} {fc : FieldCache} {pos : Pos} {f : Field}
    (h : st.fieldCache = some fc) (hl : alookup fc.entries pos = some f) :
    getField st pos = (f, st) := by
  unfold getField
  rw [h]
  simp only [hl]

theorem getField_miss {st : CollState} {fc : FieldCache} {pos : Pos}
    (h : st.fieldCache = some fc) (hl : alookup fc.entries pos = none) :
    getField st pos = (mkField st.nextFid pos,
      { st with
        fieldCache :=
          some ⟨(pos, mkField st.nextFid pos) :: fc.entries, fc.createCount + 1⟩,
        nextFid := st.nextFid + 1 }) := by
  unfold getField
  rw [h]
  simp only [hl]

theorem entryAt_congr {st st' : CollState} (h : st'.fieldCache = st.fieldCache)
    (p : Pos) (q : QKey) (v : Val) : entryAt st' p q v = entryAt st p q v := by
  unfold entryAt
  rw [h]

theorem mkField_fieldOK (records : Records) {n : Nat} {pos : Pos} (fid : Nat)
    (hpos : pos < n) : fieldOK records n (mkField fid pos) := by
  refine ⟨hpos, rfl, ?_⟩
  intro e he
  simp [mkField] at he

/-- All the facts about one `getField` call the composite operations
need. -/
theorem getField_facts (records : Records) (st : CollState) (pos : Pos) :
    (getField st pos).2.n = st.n ∧
    (getField st pos).2.useMetadataCache = st.useMetadataCache ∧
    (getField st pos).2.handleCache = st.handleCache ∧
    (getField st pos).2.handleCount = st.handleCount ∧
    (getField st pos).2.nextHid = st.nextHid ∧
    (getField st pos).2.order = st.order ∧
    (st.fieldCache = none → (getField st pos).2.fieldCache = none) ∧
    (pos < st.n → fcOK records st → fcOK records (getField st pos).2) ∧
    (pos < st.n → fcOK records st →
      (getField st pos).1.pos = pos ∧ fieldOK records st.n (getField st pos).1) ∧
    (∀ p q v, entryAt st p q v = true → entryAt (getField st pos).2 p q v = true) ∧
    (∀ fc, st.fieldCache = some fc → ∃ fc', (getField st pos).2.fieldCache = some fc' ∧
      alookup fc'.entries pos = some (getField st pos).1) := by
  cases hfc : st.fieldCache with
  | none =>
    rw [getField_disabled pos hfc]
    refine ⟨rfl, rfl, rfl, rfl, rfl, rfl, fun _ => hfc, ?_, ?_, ?_, ?_⟩
    · intro _ _ fc h
      simp only at h
      rw [hfc] at h
      cases h
    · intro hpos _
      exact ⟨rfl, mkField_fieldOK records st.nextFid hpos⟩
    · intro p q v h
      exact h
    · intro fc h
      exact Option.noConfusion h
  | some fc =>
    cases hl : alookup fc.entries pos with
    | some f =>
      rw [getField_hit hfc hl]
      refine ⟨rfl, rfl, rfl, rfl, rfl, rfl, fun h => Option.noConfusion h, fun _ h => h,
        ?_, fun _ _ _ h => h, ?_⟩
      · intro hpos hok
        have hmem := mem_of_alookup_eq_some hl
        have := (hok fc hfc).2.2 _ hmem
        exact ⟨this.1.symm, this.2⟩
      · intro fc0 h0
        exact ⟨fc, hfc, hl⟩
    | none =>
      rw [getField_miss hfc hl]
      refine ⟨rfl, rfl, rfl, rfl, rfl, rfl, ?_, ?_, ?_, ?_, ?_⟩
      · intro h
        exact Option.noConfusion h
      · intro hpos hok fc' h'
        simp only at h'
        cases h'
        obtain ⟨hcnt, hnd, hent⟩ := hok fc hfc
        refine ⟨by simpa using hcnt, ?_, ?_⟩
        · simp only [List.map_cons, List.nodup_cons]
          exact ⟨not_mem_of_alookup_none hl, hnd⟩
        · intro e he
          rcases List.mem_cons.mp he with rfl | he'
          · exact ⟨rfl, mkField_fieldOK records st.nextFid hpos⟩
          · exact hent e he'
      · intro hpos _
        exact ⟨rfl, mkField_fieldOK records st.nextFid hpos⟩
      · intro p q v h
        unfold entryAt at h ⊢
        rw [hfc] at h
        simp only at h ⊢
        by_cases hp : pos = p
        · subst hp
          rw [hl] at h
          cases h
        · rw [alookup_cons_ne hp]
          exact h
      · intro fc0 h0
        refine ⟨_, rfl, ?_⟩
        rw [alookup_cons]
        simp

/-- The facts about one `writeBack` call. -/
theorem writeBack_facts (records : Records) (st : CollState) (f : Field) :
    (writeBack st f).n = st.n ∧
    (writeBack st f).useMetadataCache = st.useMetadataCache ∧
    (writeBack st f).handleCache = st.handleCache ∧
    (writeBack st f).handleCount = st.handleCount ∧
    (writeBack st f).nextHid = st.nextHid ∧
    (writeBack st f).nextFid = st.nextFid ∧
    (writeBack st f).order = st.order ∧
    (st.fieldCache = none → (writeBack st f).fieldCache = none) ∧
    (∀ fc, st.fieldCache = some fc → ∃ fc', (writeBack st f).fieldCache = some fc') ∧
    (fieldOK records st.n f → fcOK records st → fcOK records (writeBack st f)) := by
  cases hfc : st.fieldCache with
  | none =>
    have hwb : writeBack st f = st := by
      unfold writeBack
      rw [hfc]
    rw [hwb]
    exact ⟨rfl, rfl, rfl, rfl, rfl, rfl, rfl, fun _ => hfc,
      fun fc h => Option.noConfusion h, fun _ h => h⟩
  | some fc =>
    have hwb : writeBack st f =
        { st with fieldCache := some { fc with entries := areplace fc.entries f.pos f } } := by
      unfold writeBack
      rw [hfc]
    rw [hwb]
    refine ⟨rfl, rfl, rfl, rfl, rfl, rfl, rfl, ?_, ?_, ?_⟩
    · intro h
      exact Option.noConfusion h
    · intro fc0 h0
      exact ⟨_, rfl⟩
    · intro hf hok fc' h'
      simp only at h'
      cases h'
      obtain ⟨hcnt, hnd, hent⟩ := hok fc hfc
      refine ⟨by rw [areplace_length]; exact hcnt, by rwa [areplace_map_fst], ?_⟩
      intro e he
      rcases mem_areplace he with rfl | he'
      · exact ⟨rfl, hf⟩
      · exact hent e he'

theorem QStep.qrefl (records : Records) (st : CollState) : QStep records st st :=
  ⟨rfl, rfl, rfl, fun h => h, fun hc' h => ⟨hc', h, rfl⟩, fun h => h, fun h => h,
    fun fc h => ⟨fc, h⟩, fun h _ => h, fun h => h, fun _ _ _ _ _ h => h⟩

theorem QStep.qtrans {records : Records} {s1 s2 s3 : CollState}
    (a : QStep records s1 s2) (b : QStep records s2 s3) : QStep records s1 s3 := by
  refine ⟨b.n_eq.trans a.n_eq, b.umc_eq.trans a.umc_eq, b.hcount_eq.trans a.hcount_eq,
    fun h => b.hc_none (a.hc_none h), ?_, fun h => b.hc_ok (a.hc_ok h),
    fun h => b.fc_none (a.fc_none h), ?_, ?_, fun h => b.order_ok (a.order_ok h), ?_⟩
  · intro hc3 h3
    rcases b.hc_cap hc3 h3 with ⟨hc2, h2, hcap2⟩
    rcases a.hc_cap hc2 h2 with ⟨hc1, h1, hcap1⟩
    exact ⟨hc1, h1, hcap2.trans hcap1⟩
  · intro fc h
    rcases a.fc_some fc h with ⟨fc2, h2⟩
    exact b.fc_some fc2 h2
  · intro hfc hord
    exact b.fc_ok (a.fc_ok hfc hord) (a.order_ok hord)
  · intro hfc hord pos q v h
    exact b.md_persist (a.fc_ok hfc hord) (a.order_ok hord) pos q v
      (a.md_persist hfc hord pos q v h)

theorem hcOK_congr {st st' : CollState} (h : st'.handleCache = st.handleCache)
    (hok : hcOK st) : hcOK st' :=
  fun hc cap h' hcap => hok hc cap (h ▸ h') hcap

theorem fcOK_congr {records : Records} {st st' : CollState}
    (hfc : st'.fieldCache = st.fieldCache) (hn : st'.n = st.n)
    (hok : fcOK records st) : fcOK records st' := by
  intro fc h'
  rw [hn]
  exact hok fc (hfc ▸ h')

theorem orderOK_congr {st st' : CollState} (ho : st'.order = st.order)
    (hn : st'.n = st.n) (hok : orderOK st) : orderOK st' := by
  intro p hp
  rw [hn]
  exact hok p (ho ▸ hp)

theorem entryAt_true_iff {st : CollState} {fc : FieldCache}
    (h : st.fieldCache = some fc) (p : Pos) (q : QKey) (v : Val) :
    entryAt st p q v = true ↔ ∃ g, alookup fc.entries p = some g ∧ (q, v) ∈ g.mdCache := by
  unfold entryAt
  rw [h]
  cases hl : alookup fc.entries p with
  | some g => simp [hl]
  | none => simp [hl]

/-- The combined effect of a resolution step (`resolveKey` or a whole
`uvRow`) followed by the write-back of the mutated field. -/
theorem stepWriteBack_facts {records : Records} {st st2 : CollState} {f f2 : Field}
    (hH : HFrame st st2) (hS : FieldStep records f f2) :
    (writeBack st2 f2).n = st.n ∧
    (writeBack st2 f2).useMetadataCache = st.useMetadataCache ∧
    (writeBack st2 f2).handleCount = st.handleCount ∧
    (writeBack st2 f2).order = st.order ∧
    (st.handleCache = none → (writeBack st2 f2).handleCache = none) ∧
    (∀ hc', (writeBack st2 f2).handleCache = some hc' →
      ∃ hc, st.handleCache = some hc ∧ hc'.capacity = hc.capacity) ∧
    (hcOK st → hcOK (writeBack st2 f2)) ∧
    (st.fieldCache = none → (writeBack st2 f2).fieldCache = none) ∧
    (∀ fc, st.fieldCache = some fc → ∃ fc', (writeBack st2 f2).fieldCache = some fc') ∧
    (fieldOK records st.n f → fcOK records st → fcOK records (writeBack st2 f2)) ∧
    (∀ fc, st.fieldCache = some fc → alookup fc.entries f.pos = some f →
      ∀ p q' v', entryAt st p q' v' = true →
        entryAt (writeBack st2 f2) p q' v' = true) := by
  obtain ⟨w1, w2, w3, w4, w5, w6, w7, w8, w9, w10⟩ := writeBack_facts records st2 f2
  refine ⟨w1.trans hH.n_eq, w2.trans hH.umc_eq, w4.trans hH.hcount_eq,
    w7.trans hH.order_eq, ?_, ?_, ?_, ?_, ?_, ?_, ?_⟩
  · intro h
    rw [w3]
    exact hH.hc_none h
  · intro hc' h'
    rw [w3] at h'
    exact hH.hc_cap hc' h'
  · intro hok
    exact hcOK_congr w3 (hH.hc_ok hok)
  · intro h
    exact w8 (hH.fc_eq.trans h)
  · intro fc h
    exact w9 fc (hH.fc_eq.trans h)
  · intro hf hok
    have hok2 : fcOK records st2 := fcOK_congr hH.fc_eq hH.n_eq hok
    have hf2 : fieldOK records st2.n f2 := by
      obtain ⟨hp, hh, hm⟩ := hf
      refine ⟨?_, hS.fhandle_eq.trans hh, hS.mdOK_out hm⟩
      rw [hS.pos_eq, hH.n_eq]
      exact hp
    exact w10 hf2 hok2
  · intro fc hfc hstored p q' v' h
    have hfc2 : st2.fieldCache = some fc := hH.fc_eq.trans hfc
    have hwb : writeBack st2 f2 =
        { st2 with fieldCache := some { fc with entries := areplace fc.entries f2.pos f2 } } := by
      unfold writeBack
      rw [hfc2]
    rcases (entryAt_true_iff hfc p q' v').mp h with ⟨g, hg, hmem⟩
    rw [hwb]
    rw [@entryAt_true_iff { st2 with fieldCache := some { fc with entries := areplace fc.entries f2.pos f2 } } { fc with entries := areplace fc.entries f2.pos f2 } rfl p q' v']
    by_cases hp : p = f2.pos
    · subst hp
      rw [hS.pos_eq] at hg ⊢
      have : g = f := by
        rw [hstored] at hg
        exact (Option.some.inj hg).symm
      subst this
      refine ⟨f2, ?_, hS.md_grow _ hmem⟩
      rw [← hS.pos_eq]
      exact alookup_areplace_self f2 (by rw [hS.pos_eq]; exact hstored)
    · refine ⟨g, ?_, hmem⟩
      rw [alookup_areplace_ne f2 hp]
      exact hg

/-- `metadataAt` satisfies the query-step contract, leaves the order
unchanged, and (on invariant states) returns the value the record
denotes. -/
theorem metadataAt_facts (records : Records) (st : CollState) (pos : Pos) (q : QKey)
    (hpos : pos < st.n) :
    QStep records st (metadataAt records st pos q).2.2 ∧
    (metadataAt records st pos q).2.2.order = st.order ∧
    (fcOK records st → (metadataAt records st pos q).1 = keyValue records pos q) := by
  obtain ⟨g1, g2, g3, g4, g5, g6, g7, g8, g9, g10, g11⟩ := getField_facts records st pos
  obtain ⟨hH, hS, hv⟩ := resolveKey_facts records (getField st pos).2 (getField st pos).1 q
  obtain ⟨s1, s2, s3, s4, s5, s6, s7, s8, s9, s10, s11⟩ := stepWriteBack_facts hH hS
  refine ⟨⟨s1.trans g1, s2.trans g2, s3.trans g4, ?_, ?_, ?_, ?_, ?_, ?_, ?_, ?_⟩,
    s4.trans g6, ?_⟩
  · intro h
    exact s5 (g3.trans h)
  · intro hc' h'
    rcases s6 hc' h' with ⟨hc, hhc, hcap⟩
    exact ⟨hc, g3 ▸ hhc, hcap⟩
  · intro hok
    exact s7 (hcOK_congr g3 hok)
  · intro h
    exact s8 (g7 h)
  · intro fc h
    rcases g11 fc h with ⟨fc1, hfc1, _⟩
    exact s9 fc1 hfc1
  · intro hfc hord
    have hf1 := g9 hpos hfc
    refine s10 ?_ (g8 hpos hfc)
    rw [g1]
    exact hf1.2
  · intro hord
    exact orderOK_congr (s4.trans g6) (s1.trans g1) hord
  · intro hfc hord p q' v' h
    cases hsf : st.fieldCache with
    | none =>
      unfold entryAt at h
      rw [hsf] at h
      cases h
    | some fc =>
      rcases g11 fc hsf with ⟨fc', hfc', hstored⟩
      have hp1 : (getField st pos).1.pos = pos := (g9 hpos hfc).1
      exact s11 fc' hfc' (by rwa [hp1]) p q' v' (g10 p q' v' h)
  · intro hfc
    have hf1 := g9 hpos hfc
    have := hv hf1.2.2.2
    rw [hf1.1] at this
    exact this

/-- `uvField` (one position of a `unique_values` / `order_by` pass)
satisfies the query-step contract and returns the denoted values. -/
theorem uvField_facts (records : Records) (st : CollState) (pos : Pos) (qs : List QKey)
    (hpos : pos < st.n) :
    QStep records st (uvField records st pos qs).2 ∧
    (uvField records st pos qs).2.order = st.order ∧
    (fcOK records st → (uvField records st pos qs).1 = qs.map (keyValue records pos)) := by
  obtain ⟨g1, g2, g3, g4, g5, g6, g7, g8, g9, g10, g11⟩ := getField_facts records st pos
  obtain ⟨hH, hS, hv⟩ := uvRow_facts records qs (getField st pos).2 (getField st pos).1
  obtain ⟨s1, s2, s3, s4, s5, s6, s7, s8, s9, s10, s11⟩ := stepWriteBack_facts hH hS
  refine ⟨⟨s1.trans g1, s2.trans g2, s3.trans g4, ?_, ?_, ?_, ?_, ?_, ?_, ?_, ?_⟩,
    s4.trans g6, ?_⟩
  · intro h
    exact s5 (g3.trans h)
  · intro hc' h'
    rcases s6 hc' h' with ⟨hc, hhc, hcap⟩
    exact ⟨hc, g3 ▸ hhc, hcap⟩
  · intro hok
    exact s7 (hcOK_congr g3 hok)
  · intro h
    exact s8 (g7 h)
  · intro fc h
    rcases g11 fc h with ⟨fc1, hfc1, _⟩
    exact s9 fc1 hfc1
  · intro hfc hord
    have hf1 := g9 hpos hfc
    refine s10 ?_ (g8 hpos hfc)
    rw [g1]
    exact hf1.2
  · intro hord
    exact orderOK_congr (s4.trans g6) (s1.trans g1) hord
  · intro hfc hord p q' v' h
    cases hsf : st.fieldCache with
    | none =>
      unfold entryAt at h
      rw [hsf] at h
      cases h
    | some fc =>
      rcases g11 fc hsf with ⟨fc', hfc', hstored⟩
      have hp1 : (getField st pos).1.pos = pos := (g9 hpos hfc).1
      exact s11 fc' hfc' (by rwa [hp1]) p q' v' (g10 p q' v' h)
  · intro hfc
    have hf1 := g9 hpos hfc
    have := hv hf1.2.2.2
    rw [hf1.1] at this
    exact this

/-- One `unique_values`-style pass over a list of positions. -/
theorem uvPass_facts (records : Records) (qs : List QKey) :
    ∀ (ps : List Pos) (st : CollState), (∀ p ∈ ps, p < st.n) →
    QStep records st (uvPass records st qs ps).2 ∧
    (uvPass records st qs ps).2.order = st.order ∧
    (fcOK records st → orderOK st →
      (uvPass records st qs ps).1 = ps.map (fun p => qs.map (keyValue records p))) := by
  intro ps
  induction ps with
  | nil =>
    intro st _
    exact ⟨QStep.qrefl records st, rfl, fun _ _ => rfl⟩
  | cons p ps ih =>
    intro st hps
    have hp : p < st.n := hps p (List.mem_cons_self _ _)
    obtain ⟨Q1, O1, V1⟩ := uvField_facts records st p qs hp
    have hps' : ∀ p' ∈ ps, p' < (uvField records st p qs).2.n := by
      intro p' hp'
      rw [Q1.n_eq]
      exact hps p' (List.mem_cons_of_mem _ hp')
    obtain ⟨Q2, O2, V2⟩ := ih (uvField records st p qs).2 hps'
    refine ⟨Q1.qtrans Q2, O2.trans O1, ?_⟩
    intro hfc hord
    show (uvField records st p qs).1 :: (uvPass records _ qs ps).1 = _
    rw [V1 hfc, V2 (Q1.fc_ok hfc hord) (Q1.order_ok hord), List.map_cons]

/-- `unique_values` satisfies the query-step contract, leaves the order
unchanged, and (on invariant states) denotes to a pure function of the
record content and the current order. -/
theorem unique_values_facts (records : Records) (st : CollState) (qs : List QKey)
    (hord : orderOK st) :
    QStep records st (unique_values records st qs).2 ∧
    (unique_values records st qs).2.order = st.order ∧
    (fcOK records st → (unique_values records st qs).1 =
      columnsDedup qs.length (st.order.map (fun p => qs.map (keyValue records p)))) := by
  obtain ⟨Q, O, V⟩ := uvPass_facts records qs st.order st hord
  exact ⟨Q, O, fun hfc => by
    show columnsDedup qs.length (uvPass records st qs st.order).1 = _
    rw [V hfc hord]⟩

/-- One `order_by` pass collecting the sort tuples. -/
theorem obPass_facts (records : Records) (qs : List QKey) :
    ∀ (ps : List Pos) (st : CollState), (∀ p ∈ ps, p < st.n) →
    QStep records st (obPass records st qs ps).2 ∧
    (obPass records st qs ps).2.order = st.order := by
  intro ps
  induction ps with
  | nil =>
    intro st _
    exact ⟨QStep.qrefl records st, rfl⟩
  | cons p ps ih =>
    intro st hps
    have hp : p < st.n := hps p (List.mem_cons_self _ _)
    obtain ⟨Q1, O1, _⟩ := uvField_facts records st p qs hp
    have hps' : ∀ p' ∈ ps, p' < (uvField records st p qs).2.n := by
      intro p' hp'
      rw [Q1.n_eq]
      exact hps p' (List.mem_cons_of_mem _ hp')
    obtain ⟨Q2, O2⟩ := ih (uvField records st p qs).2 hps'
    exact ⟨Q1.qtrans Q2, O2.trans O1⟩

theorem obPass_map_fst (records : Records) (qs : List QKey) :
    ∀ (ps : List Pos) (st : CollState),
    (obPass records st qs ps).1.map Prod.fst = ps := by
  intro ps
  induction ps with
  | nil => intro st; rfl
  | cons p ps ih =>
    intro st
    show p :: (obPass records _ qs ps).1.map Prod.fst = p :: ps
    rw [ih]

theorem insertSorted_mem {x y : Pos × List Val} {l : List (Pos × List Val)}
    (h : x ∈ insertSorted y l) : x = y ∨ x ∈ l := by
  induction l with
  | nil => simpa [insertSorted] using h
  | cons z t ih =>
    unfold insertSorted at h
    by_cases hle : valListLe y.2 z.2
    · rw [if_pos hle] at h
      rcases List.mem_cons.mp h with h1 | h1
      · exact Or.inl h1
      · exact Or.inr h1
    · rw [if_neg hle] at h
      rcases List.mem_cons.mp h with h1 | h1
      · exact Or.inr (h1 ▸ List.mem_cons_self _ _)
      · rcases ih h1 with h2 | h2
        · exact Or.inl h2
        · exact Or.inr (List.mem_cons_of_mem _ h2)

theorem sortTuples_mem {x : Pos × List Val} {l : List (Pos × List Val)}
    (h : x ∈ sortTuples l) : x ∈ l := by
  induction l with
  | nil => simp [sortTuples] at h
  | cons z t ih =>
    unfold sortTuples at h
    rcases insertSorted_mem h with h1 | h1
    · exact h1 ▸ List.mem_cons_self _ _
    · exact List.mem_cons_of_mem _ (ih h1)

/-- `order_by` satisfies the query-step contract. -/
theorem order_by_qstep (records : Records) (st : CollState) (qs : List QKey)
    (hord : orderOK st) : QStep records st (order_by records st qs) := by
  obtain ⟨Q, O⟩ := obPass_facts records qs st.order st hord
  have hob : order_by records st qs =
      { (obPass records st qs st.order).2 with
        order := (sortTuples (obPass records st qs st.order).1).map Prod.fst } := rfl
  rw [hob]
  refine ⟨Q.n_eq, Q.umc_eq, Q.hcount_eq, Q.hc_none, Q.hc_cap, Q.hc_ok, Q.fc_none,
    Q.fc_some, ?_, ?_, ?_⟩
  · intro hfc hord'
    exact fcOK_congr rfl rfl (Q.fc_ok hfc hord')
  · intro _
    intro p hp
    simp only at hp
    rcases List.mem_map.mp hp with ⟨e, he, hfst⟩
    have he' : e ∈ (obPass records st qs st.order).1 := sortTuples_mem he
    have : e.1 ∈ st.order := by
      rw [← obPass_map_fst records qs st.order st]
      exact List.mem_map_of_mem Prod.fst he'
    have hlt := hord _ (hfst ▸ this)
    show p < _
    rw [Q.n_eq]
    exact hlt
  · intro hfc hord' p q v h
    exact Q.md_persist hfc hord' p q v h

/-- Every caller query satisfies the query-step contract. -/
theorem runQuery_qstep (records : Records) (st : CollState) (query : Query)
    (hord : orderOK st) : QStep records st (runQuery records st query) := by
  cases query with
  | md i q =>
    show QStep records st (match st.order[i]? with
      | some pos => (metadataAt records st pos q).2.2
      | none => st)
    cases h : st.order[i]? with
    | some pos =>
      have hmem : pos ∈ st.order := List.getElem?_mem h
      exact (metadataAt_facts records st pos q (hord pos hmem)).1
    | none => exact QStep.qrefl records st
  | uniq qs => exact (unique_values_facts records st qs hord).1
  | ordBy qs => exact order_by_qstep records st qs hord

/-- A whole query sequence satisfies the query-step contract. -/
theorem runQueries_qstep (records : Records) :
    ∀ (l : List Query) (st : CollState), orderOK st →
    QStep records st (runQueries records st l) := by
  intro l
  induction l with
  | nil => intro st _; exact QStep.qrefl records st
  | cons query l ih =>
    intro st hord
    have Q1 := runQuery_qstep records st query hord
    have Q2 := ih (runQuery records st query) (Q1.order_ok hord)
    exact Q1.qtrans Q2

/-- The state invariant is preserved by query steps. -/
theorem stInv_qstep {records : Records} {st st' : CollState}
    (h : QStep records st st') (hinv : stInv records st) : stInv records st' :=
  ⟨h.hc_ok hinv.1, h.fc_ok hinv.2.1 hinv.2.2.1, h.order_ok hinv.2.2.1,
    h.hcount_eq.trans hinv.2.2.2⟩

/-- A freshly constructed FieldList satisfies the state invariant. -/
theorem stInv_init (records : Records) (n : Nat) (fim : Bool)
    (cap : Option Nat) (umc : Bool) : stInv records (initState n fim cap umc) := by
  refine ⟨?_, ?_, ?_, rfl⟩
  · intro hc cap' h hcap'
    cases cap with
    | none =>
      simp only [initState] at h
      cases h
      cases hcap'
    | some k =>
      cases k with
      | zero =>
        simp only [initState] at h
        cases h
      | succ m =>
        simp only [initState] at h
        cases h
        simp at hcap'
        subst hcap'
        simp
  · intro fc h
    simp only [initState] at h
    cases hf : fim with
    | true =>
      rw [hf] at h
      simp at h
      subst h
      exact ⟨rfl, List.nodup_nil, fun e he => absurd he (List.not_mem_nil e)⟩
    | false =>
      rw [hf] at h
      simp at h
  · intro p hp
    simp only [initState] at hp
    exact List.mem_range.mp hp

/-- The state invariant holds in every state reachable from a fresh
FieldList. -/
theorem stInv_reach (records : Records) (n : Nat) (fim : Bool) (cap : Option Nat)
    (umc : Bool) (l : List Query) :
    stInv records (runQueries records (initState n fim cap umc) l) := by
  have h0 := stInv_init records n fim cap umc
  exact stInv_qstep (runQueries_qstep records l _ h0.2.2.1) h0

/-! ### Reached-state configuration facts and handle-property lemmas -/

theorem runQueries_config (records : Records) (n : Nat) (fim : Bool) (cap : Option Nat)
    (umc : Bool) (l : List Query) :
    (runQueries records (initState n fim cap umc) l).n = n ∧
    (runQueries records (initState n fim cap umc) l).useMetadataCache = umc ∧
    (runQueries records (initState n fim cap umc) l).handleCount = 0 ∧
    (fim = false → (runQueries records (initState n fim cap umc) l).fieldCache = none) ∧
    (cap = some 0 → (runQueries records (initState n fim cap umc) l).handleCache = none) := by
  have h0 := stInv_init records n fim cap umc
  have Q := runQueries_qstep records l _ h0.2.2.1
  refine ⟨Q.n_eq, Q.umc_eq, Q.hcount_eq, ?_, ?_⟩
  · intro h
    subst h
    exact Q.fc_none rfl
  · intro h
    subst h
    exact Q.hc_none rfl

theorem handleProp_fhandle_some {st : CollState} {f : Field} {h : Handle}
    (hf : f.fhandle = some h) : handleProp st f = (h, f, st) := by
  unfold handleProp
  rw [hf]

theorem handleProp_facts {st : CollState} {f : Field} (hf : f.fhandle = none) :
    (handleProp st f).1.hpos = f.pos ∧
    (handleProp st f).2.1 = { f with fhandle := some (handleProp st f).1 } := by
  unfold handleProp
  rw [hf]
  cases hhc : st.handleCache with
  | some hc => exact ⟨hcAcquire_hpos hc f.pos st.nextHid, rfl⟩
  | none => exact ⟨rfl, rfl⟩

theorem keyValueH_eq (records : Records) (h : Handle) (q : QKey) :
    keyValueH records h q = keyValue records h.hpos q := by
  obtain ⟨qn, qd⟩ := q
  cases qd with
  | nil => rfl
  | cons d ds => rfl

theorem resolveKey_basic (records : Records) (st : CollState) (f : Field) {q : QKey}
    (hq : q.deps = []) : resolveKey records st f q = resolveBasicName records st f q.name := by
  obtain ⟨qn, qd⟩ := q
  simp only at hq
  subst hq
  rfl

theorem resolveBasicName_hit {records : Records} {st : CollState} {f : Field}
    {k : String} {v : Val} (humc : st.useMetadataCache = true)
    (hl : alookup f.mdCache ⟨k, []⟩ = some v) :
    resolveBasicName records st f k = (v, { f with mdHits := f.mdHits + 1 }, st) := by
  unfold resolveBasicName
  rw [humc]
  simp only [if_pos]
  rw [hl]

theorem resolveBasicName_miss {records : Records} {st : CollState} {f : Field}
    {k : String} (humc : st.useMetadataCache = true)
    (hl : alookup f.mdCache ⟨k, []⟩ = none) :
    resolveBasicName records st f k =
      (Handle.get records (touchHandle st f.pos).1 k,
       { f with
          mdCache := f.mdCache ++ [(⟨k, []⟩, Handle.get records (touchHandle st f.pos).1 k)],
          mdMisses := f.mdMisses + 1 },
       releaseTransient (touchHandle st f.pos).2) := by
  unfold resolveBasicName
  rw [humc]
  simp only [if_pos]
  rw [hl]

theorem writeBack_none {st : CollState} (f : Field) (h : st.fieldCache = none) :
    writeBack st f = st := by
  unfold writeBack
  rw [h]

/-- C1: on the 18-record collection with the metadata cache enabled and
handle cache capacity 1 or 5, the first full pass requesting the four
derived keys yields `metadata_cache_misses = 108`, `metadata_cache_hits
= 0` and `handle_cache_create_count = 18`; a second identical pass
leaves the misses at 108, yields `metadata_cache_hits = 72`, and leaves
the create count at 18. -/
theorem scenario_two_pass_cache_counters :
    (diag (scenarioPass (scenarioInit true (some 1))) = ⟨18, 18, 1, 18, 0, 0, 108, 108⟩ ∧
     diag (scenarioPass (scenarioPass (scenarioInit true (some 1)))) =
       ⟨18, 18, 1, 18, 0, 72, 108, 108⟩) ∧
    (diag (scenarioPass (scenarioInit true (some 5))) = ⟨18, 18, 5, 18, 0, 0, 108, 108⟩ ∧
     diag (scenarioPass (scenarioPass (scenarioInit true (some 5)))) =
       ⟨18, 18, 5, 18, 0, 72, 108, 108⟩) := by
  decide

/-- C3 counterexample: with handle cache capacity 0 a full pass over the
18-record collection performs 90 decodes (the handle-id counter grows
from 0 to 90), yet `handle_cache_create_count` reads 0 afterwards — it
does not increment on `decode_fn` invocations and in particular never
reaches 18. -/
theorem cap0_create_count_counterexample :
    (diag (scenarioPass (scenarioInit true (some 0)))).handle_cache_create_count = 0 ∧
    (scenarioPass (scenarioInit true (some 0))).nextHid = 90 ∧
    ¬ 18 ≤ (diag (scenarioPass (scenarioInit true (some 0)))).handle_cache_create_count := by
  decide

/-- C3 amended: with handle cache capacity 0 no handle cache exists in
any reachable state: `handle_cache_create_count` and `handle_cache_size`
read 0 regardless of the decodes performed, and no handle is ever
stored. -/
theorem cap0_no_handle_cache (records : Records) (n : Nat) (fim umc : Bool)
    (l : List Query) :
    (runQueries records (initState n fim (some 0) umc) l).handleCache = none ∧
    (diag (runQueries records (initState n fim (some 0) umc) l)).handle_cache_create_count = 0 ∧
    (diag (runQueries records (initState n fim (some 0) umc) l)).handle_cache_size = 0 := by
  have hnone := (runQueries_config records n fim (some 0) umc l).2.2.2.2 rfl
  refine ⟨hnone, ?_, ?_⟩ <;> simp [diag, hnone]

/-- C7: with the FieldCache enabled, indexing a position a second (or
later) time returns the identical stored Field object and leaves the
state unchanged; in every reachable state `field_cache_create_count`
equals the number of stored Fields and saturates at the collection
size. -/
theorem field_cache_idempotent_and_saturating (records : Records) (n : Nat)
    (cap : Option Nat) (umc : Bool) (l : List Query) (pos : Pos) :
    getField (getField (runQueries records (initState n true cap umc) l) pos).2 pos =
      ((getField (runQueries records (initState n true cap umc) l) pos).1,
       (getField (runQueries records (initState n true cap umc) l) pos).2) ∧
    (diag (runQueries records (initState n true cap umc) l)).field_cache_create_count =
      (diag (runQueries records (initState n true cap umc) l)).field_cache_size ∧
    (diag (runQueries records (initState n true cap umc) l)).field_cache_create_count ≤ n := by
  have hinv := stInv_reach records n true cap umc l
  have hQ := runQueries_qstep records l _ (stInv_init records n true cap umc).2.2.1
  rcases hQ.fc_some ⟨[], 0⟩ rfl with ⟨fc, hfc⟩
  have hn : (runQueries records (initState n true cap umc) l).n = n := hQ.n_eq
  obtain ⟨hcnt, hnd, hent⟩ := hinv.2.1 fc hfc
  refine ⟨?_, ?_, ?_⟩
  · cases hl : alookup fc.entries pos with
    | some f =>
      rw [getField_hit hfc hl, getField_hit hfc hl]
    | none =>
      rw [getField_miss hfc hl]
      refine @getField_hit _ ⟨(pos, mkField (runQueries records
        (initState n true cap umc) l).nextFid pos) :: fc.entries, fc.createCount + 1⟩
        pos _ rfl ?_
      rw [alookup_cons]
      simp
  · simp [diag, hfc, hcnt]
  · have hkeys : ∀ k ∈ fc.entries.map Prod.fst, k < n := by
      intro k hk
      rcases List.mem_map.mp hk with ⟨e, he, hfst⟩
      obtain ⟨hke, hpe, _, _⟩ := hent e he
      rw [← hfst, hke]
      rw [hn] at hpe
      exact hpe
    have hlen : fc.entries.length ≤ n := by
      have := nodup_bounded_length hnd hkeys
      rwa [List.length_map] at this
    simp only [diag, hfc]
    rw [hcnt]
    exact hlen

/-- C8: with the FieldCache disabled, every collection-level counter
tied to Fields reads 0 in every reachable state, even after metadata
queries on transient Fields; a per-Field diag on a retained transient
Field reports that Field's own MetadataCache counters (here one miss,
one hit, one entry after a repeated basic-key query) while the
collection snapshot still reads 0 everywhere; `diag` is a pure read of
the state and changes no counter. -/
theorem diag_aggregates_stored_fields_only (records : Records) (n : Nat)
    (cap : Option Nat) (umc : Bool) (l : List Query) :
    ((runQueries records (initState n false cap umc) l).fieldCache = none ∧
     (diag (runQueries records (initState n false cap umc) l)).field_cache_size = 0 ∧
     (diag (runQueries records (initState n false cap umc) l)).field_cache_create_count = 0 ∧
     (diag (runQueries records (initState n false cap umc) l)).metadata_cache_hits = 0 ∧
     (diag (runQueries records (initState n false cap umc) l)).metadata_cache_misses = 0 ∧
     (diag (runQueries records (initState n false cap umc) l)).metadata_cache_size = 0) ∧
    fieldDiag c8Call2.2.1 = (1, 1, 1) ∧
    diag c8Call2.2.2 = ⟨0, 0, 0, 0, 0, 0, 0, 0⟩ := by
  refine ⟨?_, by decide, by decide⟩
  have hnone := (runQueries_config records n false cap umc l).2.2.2.1 rfl
  refine ⟨hnone, ?_, ?_, ?_, ?_, ?_⟩ <;> simp [diag, storedFields, hnone]

/-- C6: with the FieldCache disabled (and handle retention off), indexing
the same position twice produces two distinct Field objects, each with
an independent empty MetadataCache; retaining a single Field reference
and repeating `metadata` on a basic key registers exactly one miss and
then one hit and returns the same value both times. -/
theorem transient_fields_independent (records : Records) (st : CollState) (pos : Pos)
    (q : QKey) (hq : q.deps = []) (hfc : st.fieldCache = none)
    (_hhc : st.handleCache = none) (humc : st.useMetadataCache = true) :
    (getField st pos).1.fid ≠ (getField (getField st pos).2 pos).1.fid ∧
    (getField st pos).1 ≠ (getField (getField st pos).2 pos).1 ∧
    (getField st pos).1.mdCache = [] ∧
    (getField (getField st pos).2 pos).1.mdCache = [] ∧
    (retainedCall1 records st pos q).2.1.mdMisses = 1 ∧
    (retainedCall1 records st pos q).2.1.mdHits = 0 ∧
    (retainedCall2 records st pos q).2.1.mdMisses = 1 ∧
    (retainedCall2 records st pos q).2.1.mdHits = 1 ∧
    (retainedCall2 records st pos q).1 = (retainedCall1 records st pos q).1 := by
  have h1 := getField_disabled pos hfc
  have hfc1 : (getField st pos).2.fieldCache = none := by
    rw [h1]
    exact hfc
  have h2 := getField_disabled pos hfc1
  have humc2 : (getField (getField st pos).2 pos).2.useMetadataCache = true := by
    rw [h2, h1]
    exact humc
  have hfc2 : (getField (getField st pos).2 pos).2.fieldCache = none := by
    rw [h2, h1]
    exact hfc
  have hfid : (getField st pos).1.fid ≠ (getField (getField st pos).2 pos).1.fid := by
    rw [h2, h1]
    simp only [mkField]
    omega
  have hmd1 : (getField st pos).1.mdCache = [] := by
    rw [h1]
    rfl
  have hl0 : alookup (getField st pos).1.mdCache ⟨q.name, []⟩ = none := by
    rw [hmd1]
    rfl
  have hrb1 := @resolveBasicName_miss records _ _ _ humc2 hl0
  have hrc1 : retainedCall1 records st pos q =
      ((resolveBasicName records (getField (getField st pos).2 pos).2
          (getField st pos).1 q.name).1,
       (resolveBasicName records (getField (getField st pos).2 pos).2
          (getField st pos).1 q.name).2.1,
       writeBack (resolveBasicName records (getField (getField st pos).2 pos).2
          (getField st pos).1 q.name).2.2
         (resolveBasicName records (getField (getField st pos).2 pos).2
          (getField st pos).1 q.name).2.1) := by
    unfold retainedCall1 fieldMetadata
    rw [resolveKey_basic records _ _ hq]
  have hfr := touchRelease_hframe (getField (getField st pos).2 pos).2 (getField st pos).1.pos
  have hfcS1 : (resolveBasicName records (getField (getField st pos).2 pos).2
      (getField st pos).1 q.name).2.2.fieldCache = none := by
    rw [hrb1]
    exact hfr.fc_eq.trans hfc2
  have humc3 : (resolveBasicName records (getField (getField st pos).2 pos).2
      (getField st pos).1 q.name).2.2.useMetadataCache = true := by
    rw [hrb1]
    exact hfr.umc_eq.trans humc2
  have hwb1 : writeBack (resolveBasicName records (getField (getField st pos).2 pos).2
      (getField st pos).1 q.name).2.2
      (resolveBasicName records (getField (getField st pos).2 pos).2
        (getField st pos).1 q.name).2.1 =
      (resolveBasicName records (getField (getField st pos).2 pos).2
        (getField st pos).1 q.name).2.2 :=
    writeBack_none _ hfcS1
  have hmdF1 : (resolveBasicName records (getField (getField st pos).2 pos).2
      (getField st pos).1 q.name).2.1.mdCache =
      [(⟨q.name, []⟩, (resolveBasicName records (getField (getField st pos).2 pos).2
        (getField st pos).1 q.name).1)] := by
    rw [hrb1]
    simp only [hmd1, List.nil_append]
  have hl1 : alookup (resolveBasicName records (getField (getField st pos).2 pos).2
      (getField st pos).1 q.name).2.1.mdCache ⟨q.name, []⟩ =
      some (resolveBasicName records (getField (getField st pos).2 pos).2
        (getField st pos).1 q.name).1 := by
    rw [hmdF1, alookup_cons]
    simp
  have hrb2 := @resolveBasicName_hit records _ _ _ _ humc3 hl1
  have hrc2 : retainedCall2 records st pos q =
      ((resolveBasicName records (getField (getField st pos).2 pos).2
          (getField st pos).1 q.name).1,
       { (resolveBasicName records (getField (getField st pos).2 pos).2
            (getField st pos).1 q.name).2.1 with
          mdHits := (resolveBasicName records (getField (getField st pos).2 pos).2
            (getField st pos).1 q.name).2.1.mdHits + 1 },
       writeBack (resolveBasicName records (getField (getField st pos).2 pos).2
          (getField st pos).1 q.name).2.2
         { (resolveBasicName records (getField (getField st pos).2 pos).2
              (getField st pos).1 q.name).2.1 with
            mdHits := (resolveBasicName records (getField (getField st pos).2 pos).2
              (getField st pos).1 q.name).2.1.mdHits + 1 }) := by
    unfold retainedCall2 fieldMetadata
    rw [hrc1]
    simp only [hwb1]
    rw [resolveKey_basic records _ _ hq, hrb2]
  have hmiss1 : (resolveBasicName records (getField (getField st pos).2 pos).2
      (getField st pos).1 q.name).2.1.mdMisses = 1 := by
    rw [hrb1, h1]
    rfl
  have hhit1 : (resolveBasicName records (getField (getField st pos).2 pos).2
      (getField st pos).1 q.name).2.1.mdHits = 0 := by
    rw [hrb1, h1]
    rfl
  refine ⟨hfid, fun h => hfid (congrArg Field.fid h), hmd1, by rw [h2]; rfl, ?_, ?_, ?_, ?_,
    ?_⟩
  · rw [hrc1]
    exact hmiss1
  · rw [hrc1]
    exact hhit1
  · rw [hrc2]
    exact hmiss1
  · rw [hrc2]
    show (resolveBasicName records (getField (getField st pos).2 pos).2
      (getField st pos).1 q.name).2.1.mdHits + 1 = 1
    rw [hhit1]
  · rw [hrc2, hrc1]

/-- C5: in any reachable collection state, after a successful
`field.metadata(q)` call, reading `field.handle` yields a handle bound
to the field's own record position — its decoded content reproduces the
value just resolved and every value cached on the field (decoding is
deterministic, so it is the handle that produced the cached values) —
and a repeated read returns the identical handle object while the Field
reference is held: metadata and handle are never decoupled. -/
theorem metadata_handle_not_decoupled (records : Records) (n : Nat) (fim : Bool)
    (cap : Option Nat) (umc : Bool) (l : List Query) (st : CollState) (pos : Pos)
    (q : QKey) (hreach : st = runQueries records (initState n fim cap umc) l)
    (hpos : pos < n) :
    (handleAfter records st pos q).1.hpos = pos ∧
    (∀ k, Handle.get records (handleAfter records st pos q).1 k = records pos k) ∧
    (metadataAt records st pos q).1 = keyValueH records (handleAfter records st pos q).1 q ∧
    (∀ e ∈ (metadataAt records st pos q).2.1.mdCache,
      e.2 = keyValueH records (handleAfter records st pos q).1 e.1) ∧
    handleProp (handleAfter records st pos q).2.2 (handleAfter records st pos q).2.1 =
      ((handleAfter records st pos q).1, (handleAfter records st pos q).2.1,
       (handleAfter records st pos q).2.2) := by
  subst hreach
  have hinv := stInv_reach records n fim cap umc l
  have hn := (runQueries_config records n fim cap umc l).1
  have hpos' : pos < (runQueries records (initState n fim cap umc) l).n := by
    rw [hn]
    exact hpos
  obtain ⟨g1, g2, g3, g4, g5, g6, g7, g8, g9, g10, g11⟩ :=
    getField_facts records (runQueries records (initState n fim cap umc) l) pos
  obtain ⟨hposf, hfok⟩ := g9 hpos' hinv.2.1
  obtain ⟨hH, hS, hv⟩ := resolveKey_facts records
    (getField (runQueries records (initState n fim cap umc) l) pos).2
    (getField (runQueries records (initState n fim cap umc) l) pos).1 q
  have hfh : (metadataAt records (runQueries records (initState n fim cap umc) l)
      pos q).2.1.fhandle = none := hS.fhandle_eq.trans hfok.2.1
  obtain ⟨hh1, hh2⟩ := handleProp_facts hfh
  have hp1 : (metadataAt records (runQueries records (initState n fim cap umc) l)
      pos q).2.1.pos = pos := hS.pos_eq.trans hposf
  have hhp : (handleAfter records (runQueries records (initState n fim cap umc) l)
      pos q).1.hpos = pos := by
    show (handleProp _ _).1.hpos = pos
    rw [hh1, hp1]
  refine ⟨hhp, ?_, ?_, ?_, ?_⟩
  · intro k
    show records (handleAfter records (runQueries records
      (initState n fim cap umc) l) pos q).1.hpos k = records pos k
    rw [hhp]
  · have hval := (metadataAt_facts records _ pos q hpos').2.2 hinv.2.1
    rw [hval, keyValueH_eq, hhp]
  · intro e he
    have hmd := hS.mdOK_out hfok.2.2
    have := hmd e he
    rw [keyValueH_eq, hhp, ← hp1]
    exact this
  · show handleProp (handleAfter records _ pos q).2.2
      (handleAfter records _ pos q).2.1 = _
    refine handleProp_fhandle_some ?_
    show (handleProp
        (metadataAt records (runQueries records (initState n fim cap umc) l) pos q).2.2
        (metadataAt records (runQueries records (initState n fim cap umc) l) pos
          q).2.1).2.1.fhandle = some _
    rw [hh2]
    rfl

/-- Witness for `metadata_handle_not_decoupled` on a fresh two-record
collection at position 0. -/
theorem metadata_handle_not_decoupled_witness :
    (handleAfter scenarioRecords (initState 2 true (some 1) true) 0 ⟨"a", []⟩).1.hpos = 0 ∧
    (∀ k, Handle.get scenarioRecords
      (handleAfter scenarioRecords (initState 2 true (some 1) true) 0 ⟨"a", []⟩).1 k =
      scenarioRecords 0 k) ∧
    (metadataAt scenarioRecords (initState 2 true (some 1) true) 0 ⟨"a", []⟩).1 =
      keyValueH scenarioRecords
        (handleAfter scenarioRecords (initState 2 true (some 1) true) 0 ⟨"a", []⟩).1
        ⟨"a", []⟩ ∧
    (∀ e ∈ (metadataAt scenarioRecords (initState 2 true (some 1) true) 0
        ⟨"a", []⟩).2.1.mdCache,
      e.2 = keyValueH scenarioRecords
        (handleAfter scenarioRecords (initState 2 true (some 1) true) 0 ⟨"a", []⟩).1 e.1) ∧
    handleProp
        (handleAfter scenarioRecords (initState 2 true (some 1) true) 0 ⟨"a", []⟩).2.2
        (handleAfter scenarioRecords (initState 2 true (some 1) true) 0 ⟨"a", []⟩).2.1 =
      ((handleAfter scenarioRecords (initState 2 true (some 1) true) 0 ⟨"a", []⟩).1,
       (handleAfter scenarioRecords (initState 2 true (some 1) true) 0 ⟨"a", []⟩).2.1,
       (handleAfter scenarioRecords (initState 2 true (some 1) true) 0 ⟨"a", []⟩).2.2) :=
  metadata_handle_not_decoupled scenarioRecords 2 true (some 1) true []
    (initState 2 true (some 1) true) 0 ⟨"a", []⟩ rfl (by decide)

/-- C2: in every reachable state the HandleCache holds at most its
configured capacity of handles; with capacity 0 the resident size is 0
and `handle_count` is back to 0 after every completed query; and no
further query (hence no eviction it performs) removes or changes a value
already stored in a stored Field's MetadataCache. -/
theorem handle_cache_bounded_and_eviction_safe (records : Records) (n : Nat)
    (fim : Bool) (cap : Option Nat) (umc : Bool) (l : List Query) (query : Query)
    (pos : Pos) (q : QKey) (v : Val) (st : CollState)
    (hreach : st = runQueries records (initState n fim cap umc) l) :
    (∀ hc c, st.handleCache = some hc → hc.capacity = some c → hc.entries.length ≤ c) ∧
    (cap = some 0 → (diag st).handle_cache_size = 0) ∧
    (diag st).handle_count = 0 ∧
    (entryAt st pos q v = true → entryAt (runQuery records st query) pos q v = true) := by
  subst hreach
  have hinv := stInv_reach records n fim cap umc l
  refine ⟨hinv.1, ?_, ?_, ?_⟩
  · intro h
    have hnone := (runQueries_config records n fim cap umc l).2.2.2.2 h
    simp [diag, hnone]
  · exact hinv.2.2.2
  · intro h
    exact (runQuery_qstep records _ query hinv.2.2.1).md_persist hinv.2.1 hinv.2.2.1
      pos q v h

/-- Witness for `handle_cache_bounded_and_eviction_safe`: after caching
one metadata value, the stored entry survives a subsequent query. -/
theorem handle_cache_bounded_and_eviction_safe_witness :
    (∀ hc c, (runQueries scenarioRecords (initState 2 true (some 1) true)
        [Query.md 0 ⟨"a", []⟩]).handleCache = some hc → hc.capacity = some c →
        hc.entries.length ≤ c) ∧
    entryAt (runQuery scenarioRecords
        (runQueries scenarioRecords (initState 2 true (some 1) true)
          [Query.md 0 ⟨"a", []⟩])
        (Query.uniq scenarioKeys)) 0 ⟨"a", []⟩ 0 = true := by
  have h := handle_cache_bounded_and_eviction_safe scenarioRecords 2 true (some 1) true
    [Query.md 0 ⟨"a", []⟩] (Query.uniq scenarioKeys) 0 ⟨"a", []⟩ 0 _ rfl
  exact ⟨h.1, h.2.2.2 (by decide)⟩

/-- Witness for `transient_fields_independent` on a fresh two-record
collection with both caches disabled. -/
theorem transient_fields_independent_witness :
    (getField (initState 2 false (some 0) true) 0).1.fid ≠
      (getField (getField (initState 2 false (some 0) true) 0).2 0).1.fid ∧
    (getField (initState 2 false (some 0) true) 0).1 ≠
      (getField (getField (initState 2 false (some 0) true) 0).2 0).1 ∧
    (getField (initState 2 false (some 0) true) 0).1.mdCache = [] ∧
    (getField (getField (initState 2 false (some 0) true) 0).2 0).1.mdCache = [] ∧
    (retainedCall1 scenarioRecords (initState 2 false (some 0) true) 0
      ⟨"a", []⟩).2.1.mdMisses = 1 ∧
    (retainedCall1 scenarioRecords (initState 2 false (some 0) true) 0
      ⟨"a", []⟩).2.1.mdHits = 0 ∧
    (retainedCall2 scenarioRecords (initState 2 false (some 0) true) 0
      ⟨"a", []⟩).2.1.mdMisses = 1 ∧
    (retainedCall2 scenarioRecords (initState 2 false (some 0) true) 0
      ⟨"a", []⟩).2.1.mdHits = 1 ∧
    (retainedCall2 scenarioRecords (initState 2 false (some 0) true) 0 ⟨"a", []⟩).1 =
      (retainedCall1 scenarioRecords (initState 2 false (some 0) true) 0 ⟨"a", []⟩).1 :=
  transient_fields_independent scenarioRecords (initState 2 false (some 0) true) 0
    ⟨"a", []⟩ rfl rfl rfl rfl

theorem entSBH_refl (e : Pos × Field) : entSameButHits e e :=
  ⟨rfl, rfl, rfl, rfl, rfl, rfl⟩

theorem entSBH_trans {a b c : Pos × Field} (h1 : entSameButHits a b)
    (h2 : entSameButHits b c) : entSameButHits a c :=
  ⟨h2.1.trans h1.1, h2.2.1.trans h1.2.1, h2.2.2.1.trans h1.2.2.1,
   h2.2.2.2.1.trans h1.2.2.2.1, h2.2.2.2.2.1.trans h1.2.2.2.2.1,
   h2.2.2.2.2.2.trans h1.2.2.2.2.2⟩

theorem forall2_ent_refl : ∀ l : List (Pos × Field), List.Forall₂ entSameButHits l l := by
  intro l
  induction l with
  | nil => exact List.Forall₂.nil
  | cons e t ih => exact List.Forall₂.cons (entSBH_refl e) ih

theorem forall2_ent_trans {l1 l2 l3 : List (Pos × Field)}
    (h1 : List.Forall₂ entSameButHits l1 l2) (h2 : List.Forall₂ entSameButHits l2 l3) :
    List.Forall₂ entSameButHits l1 l3 := by
  induction h1 generalizing l3 with
  | nil => cases h2; exact List.Forall₂.nil
  | cons he ht ih =>
    cases h2 with
    | cons he2 ht2 => exact List.Forall₂.cons (entSBH_trans he he2) (ih ht2)

theorem sbh_refl (st : CollState) : SameButHits st st := by
  refine ⟨rfl, rfl, rfl, rfl, rfl, rfl, rfl, ?_⟩
  cases h : st.fieldCache with
  | none => exact Or.inl ⟨rfl, rfl⟩
  | some fc => exact Or.inr ⟨fc, fc, rfl, rfl, rfl, forall2_ent_refl fc.entries⟩

theorem sbh_trans {s1 s2 s3 : CollState} (a : SameButHits s1 s2)
    (b : SameButHits s2 s3) : SameButHits s1 s3 := by
  obtain ⟨a1, a2, a3, a4, a5, a6, a7, a8⟩ := a
  obtain ⟨b1, b2, b3, b4, b5, b6, b7, b8⟩ := b
  refine ⟨b1.trans a1, b2.trans a2, b3.trans a3, b4.trans a4, b5.trans a5, b6.trans a6,
    b7.trans a7, ?_⟩
  rcases a8 with ⟨ha, ha'⟩ | ⟨fc1, fc2, h1, h2, hcc, hf⟩
  · rcases b8 with ⟨hb, hb'⟩ | ⟨fcx, fcy, hx, hy, _, _⟩
    · exact Or.inl ⟨ha, hb'⟩
    · rw [ha'] at hx
      cases hx
  · rcases b8 with ⟨hb, hb'⟩ | ⟨fcx, fcy, hx, hy, hcc2, hf2⟩
    · rw [h2] at hb
      cases hb
    · rw [h2] at hx
      cases hx
      exact Or.inr ⟨fc1, fcy, h1, hy, hcc2.trans hcc, forall2_ent_trans hf hf2⟩

theorem forall2_ent_map_fst {l l' : List (Pos × Field)}
    (h : List.Forall₂ entSameButHits l l') : l'.map Prod.fst = l.map Prod.fst := by
  induction h with
  | nil => rfl
  | cons he ht ih => simp [ih, he.1]

theorem forall2_ent_sum_misses {l l' : List (Pos × Field)}
    (h : List.Forall₂ entSameButHits l l') :
    (l'.map (fun e => e.2.mdMisses)).sum = (l.map (fun e => e.2.mdMisses)).sum := by
  induction h with
  | nil => rfl
  | cons he ht ih => simp [ih, he.2.2.2.2.2]

theorem forall2_ent_sum_size {l l' : List (Pos × Field)}
    (h : List.Forall₂ entSameButHits l l') :
    (l'.map (fun e => e.2.mdCache.length)).sum = (l.map (fun e => e.2.mdCache.length)).sum := by
  induction h with
  | nil => rfl
  | cons he ht ih => simp [ih, he.2.2.2.2.1]

theorem forall2_ent_alookup {l l' : List (Pos × Field)} {p : Pos} {f : Field}
    (h : List.Forall₂ entSameButHits l l') (hl : alookup l p = some f) :
    ∃ f', alookup l' p = some f' ∧ entSameButHits (p, f) (p, f') := by
  induction h with
  | nil => simp [alookup] at hl
  | cons he ht ih =>
    rename_i a b t t'
    obtain ⟨a1, a2⟩ := a
    obtain ⟨b1, b2⟩ := b
    have hb1 : b1 = a1 := he.1
    by_cases hk : a1 = p
    · subst hk
      rw [alookup_cons] at hl
      simp at hl
      subst hl
      refine ⟨b2, ?_, ?_⟩
      · rw [hb1, alookup_cons]
        simp
      · exact ⟨rfl, he.2.1, he.2.2.1, he.2.2.2.1, he.2.2.2.2.1, he.2.2.2.2.2⟩
    · rw [alookup_cons, if_neg hk] at hl
      rcases ih hl with ⟨f', hf', hent⟩
      refine ⟨f', ?_, hent⟩
      rw [hb1, alookup_cons, if_neg hk]
      exact hf'

theorem forall2_ent_keypos {l l' : List (Pos × Field)}
    (h : List.Forall₂ entSameButHits l l') (hk : ∀ e ∈ l, e.1 = e.2.pos) :
    ∀ e' ∈ l', e'.1 = e'.2.pos := by
  induction h with
  | nil => intro e' he'; simp at he'
  | cons he ht ih =>
    rename_i a b t t'
    intro e' he'
    rcases List.mem_cons.mp he' with rfl | hmem
    · rw [he.1, he.2.1]
      exact hk a (List.mem_cons_self _ _)
    · exact ih (fun e hm => hk e (List.mem_cons_of_mem _ hm)) e' hmem

theorem areplace_of_alookup_none {κ β : Type} [DecidableEq κ]
    {l : List (κ × β)} {k : κ} (v : β) (h : alookup l k = none) :
    areplace l k v = l := by
  induction l with
  | nil => rfl
  | cons e t ih =>
    obtain ⟨a, b⟩ := e
    rw [alookup_cons] at h
    by_cases hk : a = k
    · rw [if_pos hk] at h
      cases h
    · rw [if_neg hk] at h
      rw [areplace_cons_neg b t v hk, ih h]

theorem forall2_ent_areplace {l : List (Pos × Field)} {pos : Pos} {f g : Field}
    (hnd : (l.map Prod.fst).Nodup) (hl : alookup l pos = some f)
    (hent : entSameButHits (pos, f) (pos, g)) :
    List.Forall₂ entSameButHits l (areplace l pos g) := by
  induction l with
  | nil => exact List.Forall₂.nil
  | cons e t ih =>
    obtain ⟨a, b⟩ := e
    simp only [List.map_cons, List.nodup_cons] at hnd
    rw [alookup_cons] at hl
    by_cases hk : a = pos
    · subst hk
      rw [if_pos rfl] at hl
      simp at hl
      subst hl
      rw [areplace_cons_pos b t g rfl]
      refine List.Forall₂.cons ?_ ?_
      · exact ⟨hent.1, hent.2.1, hent.2.2.1, hent.2.2.2.1, hent.2.2.2.2.1,
          hent.2.2.2.2.2⟩
      · have hnone : alookup t a = none := alookup_eq_none_of_not_mem hnd.1
        rw [areplace_of_alookup_none g hnone]
        exact forall2_ent_refl t
    · rw [if_neg hk] at hl
      rw [areplace_cons_neg b t g hk]
      exact List.Forall₂.cons (entSBH_refl (a, b)) (ih hnd.2 hl)

theorem resolveKey_hit {records : Records} {st : CollState} {f : Field} {q : QKey}
    {v : Val} (humc : st.useMetadataCache = true) (hl : alookup f.mdCache q = some v) :
    resolveKey records st f q = (v, { f with mdHits := f.mdHits + 1 }, st) := by
  obtain ⟨qn, qd⟩ := q
  cases qd with
  | nil => exact resolveBasicName_hit humc hl
  | cons d ds =>
    unfold resolveKey
    rw [humc]
    simp only [if_pos]
    rw [hl]

theorem uvRow_all_hits (records : Records) :
    ∀ (qs : List QKey) (st : CollState) (f : Field),
    st.useMetadataCache = true →
    (∀ q ∈ qs, (alookup f.mdCache q).isSome = true) →
    (uvRow records st f qs).2.1 = { f with mdHits := f.mdHits + qs.length } ∧
    (uvRow records st f qs).2.2 = st := by
  intro qs
  induction qs with
  | nil =>
    intro st f _ _
    exact ⟨rfl, rfl⟩
  | cons q qs ih =>
    intro st f humc hq
    have hsome := hq q (List.mem_cons_self _ _)
    rcases Option.isSome_iff_exists.mp hsome with ⟨v, hv⟩
    have hrk := @resolveKey_hit records _ _ _ _ humc hv
    have hq' : ∀ q' ∈ qs, (alookup ({ f with mdHits := f.mdHits + 1 } : Field).mdCache
        q').isSome = true := by
      intro q' hq'
      exact hq q' (List.mem_cons_of_mem _ hq')
    obtain ⟨ih1, ih2⟩ := ih st { f with mdHits := f.mdHits + 1 } humc hq'
    constructor
    · show (uvRow records (resolveKey records st f q).2.2
        (resolveKey records st f q).2.1 qs).2.1 = _
      rw [hrk]
      simp only
      rw [ih1]
      exact congrArg (fun x => ({ f with mdHits := x } : Field))
        (show f.mdHits + 1 + qs.length = f.mdHits + (qs.length + 1) from by omega)
    · show (uvRow records (resolveKey records st f q).2.2
        (resolveKey records st f q).2.1 qs).2.2 = st
      rw [hrk]
      exact ih2

theorem posAllCached_spec {st : CollState} {p : Pos} {qs : List QKey}
    (h : posAllCached st p qs = true) :
    ∃ fc f, st.fieldCache = some fc ∧ alookup fc.entries p = some f ∧
      ∀ q ∈ qs, (alookup f.mdCache q).isSome = true := by
  unfold posAllCached at h
  cases hfc : st.fieldCache with
  | none =>
    rw [hfc] at h
    simp at h
  | some fc =>
    rw [hfc] at h
    have h' : (match alookup fc.entries p with
        | some f => qs.all (fun q => (alookup f.mdCache q).isSome)
        | none => false) = true := h
    cases hl : alookup fc.entries p with
    | none =>
      rw [hl] at h'
      simp at h'
    | some f =>
      rw [hl] at h'
      exact ⟨fc, f, rfl, hl, fun q hq => List.all_eq_true.mp h' q hq⟩

theorem uvField_all_hits (records : Records) (st : CollState) (pos : Pos)
    (qs : List QKey) (humc : st.useMetadataCache = true)
    (hkeys : ∀ fc, st.fieldCache = some fc →
      (fc.entries.map Prod.fst).Nodup ∧ ∀ e ∈ fc.entries, e.1 = e.2.pos)
    (hpc : posAllCached st pos qs = true) :
    SameButHits st (uvField records st pos qs).2 := by
  rcases posAllCached_spec hpc with ⟨fc, f, hfc, hl, hq⟩
  obtain ⟨hnd, hkey⟩ := hkeys fc hfc
  have hfp : pos = f.pos := hkey (pos, f) (mem_of_alookup_eq_some hl)
  have hgf := getField_hit hfc hl
  obtain ⟨hrow1, hrow2⟩ := uvRow_all_hits records qs st f humc hq
  have huvf : (uvField records st pos qs).2 =
      writeBack st { f with mdHits := f.mdHits + qs.length } := by
    show writeBack (uvRow records (getField st pos).2 (getField st pos).1 qs).2.2
      (uvRow records (getField st pos).2 (getField st pos).1 qs).2.1 = _
    rw [hgf]
    simp only
    rw [hrow1, hrow2]
  rw [huvf]
  have hwb : writeBack st { f with mdHits := f.mdHits + qs.length } =
      { st with fieldCache := some (FieldCache.mk
          (areplace fc.entries f.pos { f with mdHits := f.mdHits + qs.length })
          fc.createCount) } := by
    unfold writeBack
    rw [hfc]
  rw [hwb]
  refine ⟨rfl, rfl, rfl, rfl, rfl, rfl, rfl, Or.inr ⟨fc, _, hfc, rfl, rfl, ?_⟩⟩
  show List.Forall₂ entSameButHits fc.entries (areplace fc.entries f.pos _)
  refine forall2_ent_areplace hnd (by rw [← hfp]; exact hl) ?_
  exact ⟨rfl, rfl, rfl, rfl, rfl, rfl⟩

theorem sbh_umc {st st' : CollState} (h : SameButHits st st')
    (humc : st.useMetadataCache = true) : st'.useMetadataCache = true :=
  h.2.1.trans humc

theorem sbh_hkeys {st st' : CollState} (h : SameButHits st st')
    (hkeys : ∀ fc, st.fieldCache = some fc →
      (fc.entries.map Prod.fst).Nodup ∧ ∀ e ∈ fc.entries, e.1 = e.2.pos) :
    ∀ fc', st'.fieldCache = some fc' →
      (fc'.entries.map Prod.fst).Nodup ∧ ∀ e ∈ fc'.entries, e.1 = e.2.pos := by
  intro fc' hfc'
  rcases h.2.2.2.2.2.2.2 with ⟨_, hnone⟩ | ⟨fc, fcy, hx, hy, _, hf⟩
  · rw [hnone] at hfc'
    cases hfc'
  · rw [hy] at hfc'
    cases hfc'
    obtain ⟨hnd, hkey⟩ := hkeys fc hx
    constructor
    · rw [forall2_ent_map_fst hf]
      exact hnd
    · exact forall2_ent_keypos hf hkey

theorem sbh_posAllCached {st st' : CollState} {p : Pos} {qs : List QKey}
    (h : SameButHits st st') (hpc : posAllCached st p qs = true) :
    posAllCached st' p qs = true := by
  rcases posAllCached_spec hpc with ⟨fc, f, hfc, hl, hq⟩
  rcases h.2.2.2.2.2.2.2 with ⟨hnone, _⟩ | ⟨fcx, fcy, hx, hy, _, hf⟩
  · rw [hnone] at hfc
    cases hfc
  · rw [hx] at hfc
    cases hfc
    rcases forall2_ent_alookup hf hl with ⟨f', hl', hent⟩
    unfold posAllCached
    rw [hy]
    show (match alookup fcy.entries p with
      | some f => qs.all (fun q => (alookup f.mdCache q).isSome)
      | none => false) = true
    rw [hl']
    show qs.all (fun q => (alookup f'.mdCache q).isSome) = true
    rw [List.all_eq_true]
    intro q hqmem
    have := hq q hqmem
    rw [show f'.mdCache = f.mdCache from hent.2.2.2.2.1]
    exact this

theorem obPass_all_hits (records : Records) (qs : List QKey) :
    ∀ (ps : List Pos) (st : CollState), st.useMetadataCache = true →
    (∀ fc, st.fieldCache = some fc →
      (fc.entries.map Prod.fst).Nodup ∧ ∀ e ∈ fc.entries, e.1 = e.2.pos) →
    (∀ p ∈ ps, posAllCached st p qs = true) →
    SameButHits st (obPass records st qs ps).2 := by
  intro ps
  induction ps with
  | nil => intro st _ _ _; exact sbh_refl st
  | cons p ps ih =>
    intro st humc hkeys hpc
    have h1 := uvField_all_hits records st p qs humc hkeys
      (hpc p (List.mem_cons_self _ _))
    have h2 := ih (uvField records st p qs).2 (sbh_umc h1 humc) (sbh_hkeys h1 hkeys)
      (fun p' hp' => sbh_posAllCached h1 (hpc p' (List.mem_cons_of_mem _ hp')))
    exact sbh_trans h1 h2

/-- The seven non-hit diagnostics components agree on SameButHits
states. -/
theorem sbh_diag {st st' : CollState} (h : SameButHits st st') :
    (diag st').field_cache_size = (diag st).field_cache_size ∧
    (diag st').field_cache_create_count = (diag st).field_cache_create_count ∧
    (diag st').handle_cache_size = (diag st).handle_cache_size ∧
    (diag st').handle_cache_create_count = (diag st).handle_cache_create_count ∧
    (diag st').handle_count = (diag st).handle_count ∧
    (diag st').metadata_cache_misses = (diag st).metadata_cache_misses ∧
    (diag st').metadata_cache_size = (diag st).metadata_cache_size := by
  obtain ⟨h1, h2, h3, h4, h5, h6, h7, h8⟩ := h
  rcases h8 with ⟨hnone, hnone'⟩ | ⟨fc, fc', hx, hy, hcc, hf⟩
  · refine ⟨?_, ?_, ?_, ?_, ?_, ?_, ?_⟩ <;>
      simp [diag, storedFields, hnone, hnone', h3, h4]
  · have hlen := List.Forall₂.length_eq hf
    refine ⟨?_, ?_, ?_, ?_, ?_, ?_, ?_⟩
    · simp [diag, hx, hy, hlen]
    · simp [diag, hx, hy, hcc]
    · simp [diag, h3]
    · simp [diag, h3]
    · simp [diag, h4]
    · simp only [diag, storedFields, hx, hy]
      rw [List.map_map, List.map_map]
      exact forall2_ent_sum_misses hf
    · simp only [diag, storedFields, hx, hy]
      rw [List.map_map, List.map_map]
      exact forall2_ent_sum_size hf

/-- C4 counterexample: on a one-record collection with one cached key,
an `order_by` on that key changes the diagnostics snapshot (the hit
counter grows), so the snapshot is not identical before and after. -/
theorem order_by_counters_counterexample :
    diag (order_by scenarioRecords
        (runQueries scenarioRecords (initState 1 true (some 1) true)
          [Query.md 0 ⟨"a", []⟩]) [⟨"a", []⟩]) ≠
      diag (runQueries scenarioRecords (initState 1 true (some 1) true)
        [Query.md 0 ⟨"a", []⟩]) := by
  decide

/-- C4 amended: `order_by` changes counters only through the metadata
resolutions it performs to compute the sort keys: when the metadata
cache is on and every sort key is already cached on every listed Field,
every diagnostics component except `metadata_cache_hits` is identical
before and after the call; and replacing the logical order alone (the
reordering step itself) changes no diagnostics component at all. -/
theorem order_by_changes_only_hits (records : Records) (n : Nat) (fim : Bool)
    (cap : Option Nat) (umc : Bool) (l : List Query) (qs : List QKey) (st : CollState)
    (hreach : st = runQueries records (initState n fim cap umc) l)
    (humc : st.useMetadataCache = true) (hcached : allCached st qs = true) :
    ((diag (order_by records st qs)).field_cache_size = (diag st).field_cache_size ∧
     (diag (order_by records st qs)).field_cache_create_count =
       (diag st).field_cache_create_count ∧
     (diag (order_by records st qs)).handle_cache_size = (diag st).handle_cache_size ∧
     (diag (order_by records st qs)).handle_cache_create_count =
       (diag st).handle_cache_create_count ∧
     (diag (order_by records st qs)).handle_count = (diag st).handle_count ∧
     (diag (order_by records st qs)).metadata_cache_misses =
       (diag st).metadata_cache_misses ∧
     (diag (order_by records st qs)).metadata_cache_size =
       (diag st).metadata_cache_size) ∧
    (∀ o, diag { st with order := o } = diag st) := by
  subst hreach
  have hinv := stInv_reach records n fim cap umc l
  have hkeys : ∀ fc, (runQueries records (initState n fim cap umc) l).fieldCache =
      some fc → (fc.entries.map Prod.fst).Nodup ∧ ∀ e ∈ fc.entries, e.1 = e.2.pos := by
    intro fc hfc
    obtain ⟨_, hnd, hent⟩ := hinv.2.1 fc hfc
    exact ⟨hnd, fun e he => (hent e he).1⟩
  have hpc : ∀ p ∈ (runQueries records (initState n fim cap umc) l).order,
      posAllCached (runQueries records (initState n fim cap umc) l) p qs = true := by
    intro p hp
    exact List.all_eq_true.mp hcached p hp
  have hsbh := obPass_all_hits records qs
    (runQueries records (initState n fim cap umc) l).order _ humc hkeys hpc
  have hdiag : diag (order_by records (runQueries records (initState n fim cap umc) l)
      qs) = diag (obPass records (runQueries records (initState n fim cap umc) l) qs
        (runQueries records (initState n fim cap umc) l).order).2 := rfl
  rw [hdiag]
  exact ⟨sbh_diag hsbh, fun o => rfl⟩

/-- Witness for `order_by_changes_only_hits` on a one-record collection
with the sort key already cached. -/
theorem order_by_changes_only_hits_witness :
    (diag (order_by scenarioRecords
        (runQueries scenarioRecords (initState 1 true (some 1) true)
          [Query.md 0 ⟨"a", []⟩]) [⟨"a", []⟩])).metadata_cache_misses =
      (diag (runQueries scenarioRecords (initState 1 true (some 1) true)
        [Query.md 0 ⟨"a", []⟩])).metadata_cache_misses ∧
    (diag (order_by scenarioRecords
        (runQueries scenarioRecords (initState 1 true (some 1) true)
          [Query.md 0 ⟨"a", []⟩]) [⟨"a", []⟩])).handle_cache_create_count =
      (diag (runQueries scenarioRecords (initState 1 true (some 1) true)
        [Query.md 0 ⟨"a", []⟩])).handle_cache_create_count := by
  have h := order_by_changes_only_hits scenarioRecords 1 true (some 1) true
    [Query.md 0 ⟨"a", []⟩] [⟨"a", []⟩] _ rfl (by decide) (by decide)
  exact ⟨h.1.2.2.2.2.2.1, h.1.2.2.2.1⟩

/-! ### `unique_values` versus the equivalent individual `metadata` calls -/

theorem areplace_self {κ β : Type} [DecidableEq κ] {l : List (κ × β)} {k : κ} {v : β}
    (hnd : (l.map Prod.fst).Nodup) (hl : alookup l k = some v) : areplace l k v = l := by
  induction l with
  | nil => rfl
  | cons e t ih =>
    obtain ⟨a, b⟩ := e
    simp only [List.map_cons, List.nodup_cons] at hnd
    rw [alookup_cons] at hl
    by_cases hk : a = k
    · subst hk
      rw [if_pos rfl] at hl
      simp at hl
      subst hl
      rw [areplace_cons_pos b t b rfl]
      have hnone : alookup t a = none := alookup_eq_none_of_not_mem hnd.1
      rw [areplace_of_alookup_none b hnone]
    · rw [if_neg hk] at hl
      rw [areplace_cons_neg b t v hk, ih hnd.2 hl]

theorem writeBack_self {s : CollState} {fc : FieldCache} {f : Field}
    (hfc : s.fieldCache = some fc) (hnd : (fc.entries.map Prod.fst).Nodup)
    (hl : alookup fc.entries f.pos = some f) : writeBack s f = s := by
  unfold writeBack
  rw [hfc]
  show ({ s with fieldCache := (some (FieldCache.mk (areplace fc.entries f.pos f) fc.createCount)) } : CollState) = s
  rw [areplace_self hnd hl]
  have h2 : ({ s with fieldCache := some fc } : CollState) = s := by rw [← hfc]
  exact h2

theorem touchHandle_fieldCache (s : CollState) (pos : Pos) (X : Option FieldCache) :
    touchHandle (setFC s X) pos =
      ((touchHandle s pos).1, setFC (touchHandle s pos).2 X) := by
  unfold touchHandle
  rw [show (setFC s X).handleCache = s.handleCache from rfl]
  cases h : s.handleCache <;> rfl

theorem releaseTransient_fieldCache (s : CollState) (X : Option FieldCache) :
    releaseTransient (setFC s X) = setFC (releaseTransient s) X := by
  unfold releaseTransient
  rw [show (setFC s X).handleCache = s.handleCache from rfl]
  cases h : s.handleCache <;> rfl

theorem resolveBasicName_fieldCache (records : Records) (s : CollState) (f : Field)
    (k : String) (X : Option FieldCache) :
    resolveBasicName records (setFC s X) f k =
      ((resolveBasicName records s f k).1, (resolveBasicName records s f k).2.1,
       setFC (resolveBasicName records s f k).2.2 X) := by
  unfold resolveBasicName
  rw [show (setFC s X).useMetadataCache = s.useMetadataCache from rfl]
  cases humc : s.useMetadataCache with
  | true =>
    simp only [reduceIte]
    cases hl : alookup f.mdCache ⟨k, []⟩ with
    | some v => rfl
    | none =>
      simp only [touchHandle_fieldCache, releaseTransient_fieldCache]
  | false =>
    simp only [Bool.false_eq_true, if_false, touchHandle_fieldCache,
      releaseTransient_fieldCache]

theorem resolveDeps_fieldCache (records : Records) :
    ∀ (ds : List String) (s : CollState) (f : Field) (X : Option FieldCache),
    resolveDeps records (setFC s X) f ds =
      ((resolveDeps records s f ds).1, (resolveDeps records s f ds).2.1,
       setFC (resolveDeps records s f ds).2.2 X) := by
  intro ds
  induction ds with
  | nil => intro s f X; rfl
  | cons d ds ih =>
    intro s f X
    show (let r1 := resolveBasicName records (setFC s X) f d
          let r2 := resolveDeps records r1.2.2 r1.2.1 ds
          (r1.1 :: r2.1, r2.2)) = _
    rw [resolveBasicName_fieldCache]
    simp only
    rw [ih]
    rfl

theorem resolveKey_fieldCache (records : Records) (s : CollState) (f : Field)
    (q : QKey) (X : Option FieldCache) :
    resolveKey records (setFC s X) f q =
      ((resolveKey records s f q).1, (resolveKey records s f q).2.1,
       setFC (resolveKey records s f q).2.2 X) := by
  obtain ⟨qn, qd⟩ := q
  cases qd with
  | nil => exact resolveBasicName_fieldCache records s f qn X
  | cons d ds =>
    unfold resolveKey
    rw [show (setFC s X).useMetadataCache = s.useMetadataCache from rfl]
    cases humc : s.useMetadataCache with
    | true =>
      simp only [reduceIte]
      cases hl : alookup f.mdCache ⟨qn, d :: ds⟩ with
      | some v => rfl
      | none =>
        simp only [resolveDeps_fieldCache]
    | false =>
      simp only [Bool.false_eq_true, if_false, resolveDeps_fieldCache]

theorem uvRow_fieldCache (records : Records) :
    ∀ (qs : List QKey) (s : CollState) (f : Field) (X : Option FieldCache),
    uvRow records (setFC s X) f qs =
      ((uvRow records s f qs).1, (uvRow records s f qs).2.1,
       setFC (uvRow records s f qs).2.2 X) := by
  intro qs
  induction qs with
  | nil => intro s f X; rfl
  | cons q qs ih =>
    intro s f X
    show (let r1 := resolveKey records (setFC s X) f q
          let r2 := uvRow records r1.2.2 r1.2.1 qs
          (r1.1 :: r2.1, r2.2)) = _
    rw [resolveKey_fieldCache]
    simp only
    rw [ih]
    rfl

theorem writeBack_override {u : CollState} {fc fcX : FieldCache} (g : Field)
    (hu : u.fieldCache = some fc)
    (hcc : fcX.createCount = fc.createCount)
    (hent : areplace fcX.entries g.pos g = areplace fc.entries g.pos g) :
    writeBack (setFC u (some fcX)) g = writeBack u g := by
  unfold writeBack
  rw [show (setFC u (some fcX)).fieldCache = some fcX from rfl, hu]
  show ({ setFC u (some fcX) with fieldCache := (some (FieldCache.mk (areplace fcX.entries g.pos g) fcX.createCount)) } : CollState) = { u with fieldCache := (some (FieldCache.mk (areplace fc.entries g.pos g) fc.createCount)) }
  rw [hent, hcc]
  rfl

theorem foldMd_eq_uvRow (records : Records) (pos : Pos) :
    ∀ (qs : List QKey) (s : CollState) (f : Field) (fc : FieldCache),
    s.fieldCache = some fc → alookup fc.entries pos = some f → f.pos = pos →
    (fc.entries.map Prod.fst).Nodup →
    qs.foldl (fun s q => (metadataAt records s pos q).2.2) s =
      writeBack (uvRow records s f qs).2.2 (uvRow records s f qs).2.1 := by
  intro qs
  induction qs with
  | nil =>
    intro s f fc hfc hl hfp hnd
    show s = writeBack s f
    rw [writeBack_self hfc hnd (by rw [hfp]; exact hl)]
  | cons q qs ih =>
    intro s f fc hfc hl hfp hnd
    obtain ⟨hH, hS, _⟩ := resolveKey_facts records s f q
    have hmd : (metadataAt records s pos q).2.2 =
        writeBack (resolveKey records s f q).2.2 (resolveKey records s f q).2.1 := by
      show (fieldMetadata records (getField s pos).2 (getField s pos).1 q).2.2 = _
      rw [getField_hit hfc hl]
      rfl
    have hs1fc : (resolveKey records s f q).2.2.fieldCache = some fc :=
      hH.fc_eq.trans hfc
    have hwb2 : writeBack (resolveKey records s f q).2.2 (resolveKey records s f q).2.1 =
        setFC (resolveKey records s f q).2.2 (some (FieldCache.mk
            (areplace fc.entries (resolveKey records s f q).2.1.pos
              (resolveKey records s f q).2.1)
            fc.createCount)) := by
      unfold writeBack
      rw [hs1fc]
      rfl
    have hfp1 : (resolveKey records s f q).2.1.pos = pos := hS.pos_eq.trans hfp
    have hl2 : alookup (areplace fc.entries (resolveKey records s f q).2.1.pos
        (resolveKey records s f q).2.1) pos = some (resolveKey records s f q).2.1 := by
      rw [hfp1]
      exact alookup_areplace_self _ hl
    have hnd2 : ((areplace fc.entries (resolveKey records s f q).2.1.pos
        (resolveKey records s f q).2.1).map Prod.fst).Nodup := by
      rw [areplace_map_fst]
      exact hnd
    have hih := ih (writeBack (resolveKey records s f q).2.2
        (resolveKey records s f q).2.1) (resolveKey records s f q).2.1
      (FieldCache.mk (areplace fc.entries (resolveKey records s f q).2.1.pos
        (resolveKey records s f q).2.1) fc.createCount)
      (by rw [hwb2]; rfl) hl2 hfp1 hnd2
    obtain ⟨hH2, hS2, _⟩ := uvRow_facts records qs (resolveKey records s f q).2.2
      (resolveKey records s f q).2.1
    have hufc : (uvRow records (resolveKey records s f q).2.2
        (resolveKey records s f q).2.1 qs).2.2.fieldCache = some fc :=
      hH2.fc_eq.trans hs1fc
    have hp2 : (uvRow records (resolveKey records s f q).2.2
        (resolveKey records s f q).2.1 qs).2.1.pos = (resolveKey records s f q).2.1.pos :=
      hS2.pos_eq
    have huv2 : uvRow records (writeBack (resolveKey records s f q).2.2
          (resolveKey records s f q).2.1) (resolveKey records s f q).2.1 qs =
        ((uvRow records (resolveKey records s f q).2.2
            (resolveKey records s f q).2.1 qs).1,
         (uvRow records (resolveKey records s f q).2.2
            (resolveKey records s f q).2.1 qs).2.1,
         setFC (uvRow records (resolveKey records s f q).2.2
            (resolveKey records s f q).2.1 qs).2.2 (some (FieldCache.mk
          (areplace fc.entries (resolveKey records s f q).2.1.pos
            (resolveKey records s f q).2.1) fc.createCount))) := by
      rw [hwb2]
      exact uvRow_fieldCache records qs (resolveKey records s f q).2.2
        (resolveKey records s f q).2.1 (some (FieldCache.mk
          (areplace fc.entries (resolveKey records s f q).2.1.pos
            (resolveKey records s f q).2.1) fc.createCount))
    have hent : areplace (FieldCache.mk (areplace fc.entries
          (resolveKey records s f q).2.1.pos (resolveKey records s f q).2.1)
          fc.createCount).entries
        (uvRow records (resolveKey records s f q).2.2
          (resolveKey records s f q).2.1 qs).2.1.pos
        (uvRow records (resolveKey records s f q).2.2
          (resolveKey records s f q).2.1 qs).2.1 =
        areplace fc.entries
        (uvRow records (resolveKey records s f q).2.2
          (resolveKey records s f q).2.1 qs).2.1.pos
        (uvRow records (resolveKey records s f q).2.2
          (resolveKey records s f q).2.1 qs).2.1 := by
      show areplace (areplace fc.entries (resolveKey records s f q).2.1.pos
        (resolveKey records s f q).2.1) _ _ = _
      rw [hp2, areplace_areplace]
    show (q :: qs).foldl (fun s q => (metadataAt records s pos q).2.2) s = _
    rw [List.foldl_cons, hmd, hih, huv2]
    exact writeBack_override _ hufc rfl hent

theorem uvField_eq_individual (records : Records) (s : CollState) (pos : Pos)
    (qs : List QKey) (hpos : pos < s.n) (hok : fcOK records s) (fc : FieldCache)
    (hfc : s.fieldCache = some fc) :
    (uvField records s pos qs).2 = runIndividualPos records s pos qs := by
  obtain ⟨g1, g2, g3, g4, g5, g6, g7, g8, g9, g10, g11⟩ := getField_facts records s pos
  rcases g11 fc hfc with ⟨fc0, hfc0, hl0⟩
  have hfp0 : (getField s pos).1.pos = pos := (g9 hpos hok).1
  have hok0 : fcOK records (getField s pos).2 := g8 hpos hok
  obtain ⟨_, hnd0, _⟩ := hok0 fc0 hfc0
  have := foldMd_eq_uvRow records pos qs (getField s pos).2 (getField s pos).1 fc0
    hfc0 hl0 hfp0 hnd0
  show writeBack (uvRow records (getField s pos).2 (getField s pos).1 qs).2.2
    (uvRow records (getField s pos).2 (getField s pos).1 qs).2.1 =
    runIndividualPos records s pos qs
  rw [← this]
  rfl

theorem uvPass_eq_individual (records : Records) (qs : List QKey) :
    ∀ (ps : List Pos) (s : CollState), (∀ p ∈ ps, p < s.n) → fcOK records s →
    orderOK s → s.fieldCache.isSome →
    (uvPass records s qs ps).2 =
      ps.foldl (fun s pos => runIndividualPos records s pos qs) s := by
  intro ps
  induction ps with
  | nil => intro s _ _ _ _; rfl
  | cons p ps ih =>
    intro s hps hok hord hsome
    rcases Option.isSome_iff_exists.mp hsome with ⟨fc, hfc⟩
    have hp : p < s.n := hps p (List.mem_cons_self _ _)
    obtain ⟨Q1, O1, _⟩ := uvField_facts records s p qs hp
    have h1 := uvField_eq_individual records s p qs hp hok fc hfc
    have hps' : ∀ p' ∈ ps, p' < (uvField records s p qs).2.n := by
      intro p' hp'
      rw [Q1.n_eq]
      exact hps p' (List.mem_cons_of_mem _ hp')
    rcases Q1.fc_some fc hfc with ⟨fc', hfc'⟩
    have hih := ih (uvField records s p qs).2 hps' (Q1.fc_ok hok hord)
      (Q1.order_ok hord) (by rw [hfc']; rfl)
    show (uvPass records (uvField records s p qs).2 qs ps).2 = _
    rw [hih, List.foldl_cons, h1]

/-- C9 counterexample: the derived-key `unique_values` query repeated
after an intervening `order_by` returns the distinct values in the new
iteration order, not a value equal to the first result. -/
theorem unique_values_round_trip_counterexample :
    (unique_values (fun p _ => 2 - p)
        (order_by (fun p _ => 2 - p)
          (unique_values (fun p _ => 2 - p) (initState 2 true (some 1) true)
            [⟨"vd", ["a", "b"]⟩]).2 [⟨"vd", ["a", "b"]⟩])
        [⟨"vd", ["a", "b"]⟩]).1 ≠
      (unique_values (fun p _ => 2 - p) (initState 2 true (some 1) true)
        [⟨"vd", ["a", "b"]⟩]).1 := by
  decide

/-- C9 amended: resolving the same (derived) metadata key on the same
collection a second time — including after an intervening `order_by` —
returns an equal value; a repeated `unique_values` query with no
intervening reorder returns an equal result; and (with the FieldCache
enabled) `unique_values` leaves the collection in exactly the state the
equivalent individual `metadata()` calls produce — it has no separate
caching logic.  A repeated `unique_values` query is not invariant under
an intervening reorder: it reports the distinct values in iteration
order. -/
theorem round_trip_and_uv_populates_like_metadata (records : Records) (n : Nat)
    (cap : Option Nat) (umc : Bool) (l : List Query) (qs qs2 : List QKey)
    (pos : Pos) (q : QKey) (st : CollState)
    (hreach : st = runQueries records (initState n true cap umc) l)
    (hpos : pos < n) :
    (metadataAt records (order_by records (metadataAt records st pos q).2.2 qs2)
        pos q).1 = (metadataAt records st pos q).1 ∧
    (unique_values records (unique_values records st qs).2 qs).1 =
      (unique_values records st qs).1 ∧
    (unique_values records st qs).2 = runIndividual records st qs := by
  subst hreach
  have hinv := stInv_reach records n true cap umc l
  have hn := (runQueries_config records n true cap umc l).1
  have hpos' : pos < (runQueries records (initState n true cap umc) l).n := by
    rw [hn]
    exact hpos
  refine ⟨?_, ?_, ?_⟩
  · obtain ⟨Q1, O1, V1⟩ := metadataAt_facts records _ pos q hpos'
    have hinv1 := stInv_qstep Q1 hinv
    have Q2 := order_by_qstep records _ qs2 hinv1.2.2.1
    have hinv2 := stInv_qstep Q2 hinv1
    have hpos2 : pos < (order_by records (metadataAt records
        (runQueries records (initState n true cap umc) l) pos q).2.2 qs2).n := by
      rw [Q2.n_eq, Q1.n_eq]
      exact hpos'
    obtain ⟨_, _, V2⟩ := metadataAt_facts records _ pos q hpos2
    rw [V2 hinv2.2.1, V1 hinv.2.1]
  · obtain ⟨Q1, O1, V1⟩ := unique_values_facts records _ qs hinv.2.2.1
    have hinv1 := stInv_qstep Q1 hinv
    obtain ⟨Q2, O2, V2⟩ := unique_values_facts records _ qs hinv1.2.2.1
    rw [V2 hinv1.2.1, V1 hinv.2.1, O1]
  · have hsome : (runQueries records (initState n true cap umc) l).fieldCache.isSome := by
      rcases (runQueries_qstep records l _
        (stInv_init records n true cap umc).2.2.1).fc_some ⟨[], 0⟩ rfl with ⟨fc, hfc⟩
      rw [hfc]
      rfl
    have hps : ∀ p ∈ (runQueries records (initState n true cap umc) l).order,
        p < (runQueries records (initState n true cap umc) l).n :=
      hinv.2.2.1
    exact uvPass_eq_individual records qs _ _ hps hinv.2.1 hinv.2.2.1 hsome

/-- Witness for `round_trip_and_uv_populates_like_metadata` on a fresh
two-record collection. -/
theorem round_trip_and_uv_populates_like_metadata_witness :
    (metadataAt scenarioRecords
        (order_by scenarioRecords
          (metadataAt scenarioRecords (initState 2 true (some 1) true) 0
            ⟨"vd", ["a", "b"]⟩).2.2 [⟨"a", []⟩])
        0 ⟨"vd", ["a", "b"]⟩).1 =
      (metadataAt scenarioRecords (initState 2 true (some 1) true) 0
        ⟨"vd", ["a", "b"]⟩).1 ∧
    (unique_values scenarioRecords
        (unique_values scenarioRecords (initState 2 true (some 1) true)
          scenarioKeys).2 scenarioKeys).1 =
      (unique_values scenarioRecords (initState 2 true (some 1) true) scenarioKeys).1 ∧
    (unique_values scenarioRecords (initState 2 true (some 1) true) scenarioKeys).2 =
      runIndividual scenarioRecords (initState 2 true (some 1) true) scenarioKeys :=
  round_trip_and_uv_populates_like_metadata scenarioRecords 2 (some 1) true []
    scenarioKeys [⟨"a", []⟩] 0 ⟨"vd", ["a", "b"]⟩ (initState 2 true (some 1) true)
    rfl (by decide)

end Emohawk
